import Mathlib

/-!
Verification of the btrfs-heatmap rendering core (`heatmap.py`).

The Python source is shallowly embedded below.  Python floats are modelled
by exact rationals (`ℚ`), Python ints by `ℤ`/`ℕ`, raised exceptions by
`Except`, and generators by the finite lists of values they yield.
-/

/- The Batteries rational arithmetic operations are `@[irreducible]`, which
blocks `decide` on concrete rational computations; restore the default
transparency for this file. -/
attribute [local semireducible] Rat.add Rat.mul Rat.sub Rat.inv Rat.ofScientific

/-- Python `int()` applied to a (rational-valued) float: truncation toward
zero. -/
def pyInt (q : ℚ) : ℤ := q.num.tdiv (q.den : ℤ)

/-- Python float `%` with the sign conventions of a positive divisor:
`a % b = a - b * floor (a / b)`. -/
def pymod (a b : ℚ) : ℚ := a - b * ⌊a / b⌋

/-- Python 3 `round` on a (rational-valued) float: round half to even. -/
def pyRound (q : ℚ) : ℤ :=
  let f := ⌊q⌋
  let r := q - f
  if r < 1/2 then f
  else if 1/2 < r then f + 1
  else if 2 ∣ f then f else f + 1

example : pyInt (9/5) = 1 := by decide
example : pyInt (-9/5) = -1 := by decide
example : pymod 10 5 = 0 := by decide
example : pymod 7 5 = 2 := by decide
example : pyRound (255/1) = 255 := by decide
example : pyRound (5/2) = 2 := by decide
example : pyRound (7/2) = 4 := by decide

/-! ## The space-filling (hilbert) generator — `heatmap.py` lines 123-163 -/

/-- One yielded curve position: the value of the mutable list
`pos = [y, x, linear]` at yield time. -/
structure HPos where
  y : ℤ
  x : ℤ
  lin : ℕ
deriving DecidableEq, Repr

/-- Unit move `U = (-1, 0)` as `(dy, dx)`. -/
def U : ℤ × ℤ := (-1, 0)

/-- Unit move `R = (0, 1)`. -/
def R : ℤ × ℤ := (0, 1)

/-- Unit move `D = (1, 0)`. -/
def D : ℤ × ℤ := (1, 0)

/-- Unit move `L = (0, -1)`. -/
def L : ℤ × ℤ := (0, -1)

/-- The eight orientation states of the curve.  In the source each is the
4-tuple of unit moves its name spells; the eight tuples are pairwise
distinct, so a tagged enumeration keyed by name is a faithful model of the
`inception` dictionary keys. -/
inductive Orient : Type
  | URDR | RULU | URDD | LDRR | RULL | DLUU | LDRD | DLUL
deriving DecidableEq, Repr

open Orient

/-- The move tuple an orientation name stands for (`URDR = (U, R, D, R)`, ...). -/
def omoves : Orient → (ℤ × ℤ) × (ℤ × ℤ) × (ℤ × ℤ) × (ℤ × ℤ)
  | URDR => (U, R, D, R)
  | RULU => (R, U, L, U)
  | URDD => (U, R, D, D)
  | LDRR => (L, D, R, R)
  | RULL => (R, U, L, L)
  | DLUU => (D, L, U, U)
  | LDRD => (L, D, R, D)
  | DLUL => (D, L, U, L)

/-- The `inception` table: the four sub-orientations used when recursing
into the four sub-quadrants, in traversal order. -/
def inception : Orient → Orient × Orient × Orient × Orient
  | URDR => (RULU, URDR, URDD, LDRR)
  | RULU => (URDR, RULU, RULL, DLUU)
  | URDD => (RULU, URDR, URDD, LDRD)
  | LDRR => (DLUL, LDRD, LDRR, URDR)
  | RULL => (URDR, RULU, RULL, DLUL)
  | DLUU => (LDRD, DLUL, DLUU, RULU)
  | LDRD => (DLUL, LDRD, LDRR, URDD)
  | DLUL => (LDRD, DLUL, DLUU, RULL)

/-- Apply one unit move to `pos`: `pos[0] += step[0]; pos[1] += step[1];
pos[2] += 1`. -/
def stepMove (p : HPos) (m : ℤ × ℤ) : HPos := ⟨p.y + m.1, p.x + m.2, p.lin + 1⟩

/-- The `level <= 1` branch of `walk`: yield `pos` before each of the four
unit moves of the current orientation; also return the final `pos`. -/
def emit4 (o : Orient) (p : HPos) : List HPos × HPos :=
  let m := omoves o
  let p1 := stepMove p m.1
  let p2 := stepMove p1 m.2.1
  let p3 := stepMove p2 m.2.2.1
  ([p, p1, p2, p3], stepMove p3 m.2.2.2)

/-- `walk(steps, level)`: the list of yielded positions, paired with the
final value of the shared mutable `pos`.  The `0 / 1 / n+2` split encodes
the source's `if level > 1` test. -/
def walk : ℕ → Orient → HPos → List HPos × HPos
  | 0, o, p => emit4 o p
  | 1, o, p => emit4 o p
  | n+2, o, p =>
    let i := inception o
    let r1 := walk (n+1) i.1 p
    let r2 := walk (n+1) i.2.1 r1.2
    let r3 := walk (n+1) i.2.2.1 r2.2
    let r4 := walk (n+1) i.2.2.2 r3.2
    (r1.1 ++ r2.1 ++ r3.1 ++ r4.1, r4.2)

/-- `hilbert(order)`: `pos` starts at `[2**order - 1, 0, 0]` and the walk
starts from orientation `URDR` at level `order`. -/
def hilbert (order : ℕ) : List HPos := (walk order Orient.URDR ⟨2^order - 1, 0, 0⟩).1

example : hilbert 1 = [⟨1,0,0⟩, ⟨0,0,1⟩, ⟨0,1,2⟩, ⟨1,1,3⟩] := by decide

example : (hilbert 0).length = 4 := by decide

example : (hilbert 2).map (fun p => (p.y, p.x)) =
    [(3,0),(3,1),(2,1),(2,0),(1,0),(0,0),(0,1),(1,1),(1,2),(0,2),(0,3),(1,3),(2,3),(2,2),(3,2),(3,3)] := by
  decide

/-- The number of steps yielded by `walk` at level `n + 1` is `4 ^ (n + 1)`. -/
theorem walk_length : ∀ (n : ℕ) (o : Orient) (p : HPos),
    (walk (n + 1) o p).1.length = 4 ^ (n + 1) := by
  intro n
  induction n with
  | zero => intro o p; simp [walk, emit4]
  | succ n ih =>
    intro o p
    show (walk (n + 2) o p).1.length = 4 ^ (n + 2)
    simp only [walk, List.length_append, ih]
    ring

/-- `walk` always yields at least one step (also at level 0, where the
source still emits the four base moves). -/
theorem walk_ne_nil : ∀ (n : ℕ) (o : Orient) (p : HPos), (walk n o p).1 ≠ [] := by
  intro n
  match n with
  | 0 => intro o p; simp [walk, emit4]
  | 1 => intro o p; simp [walk, emit4]
  | n + 2 =>
    intro o p
    simp only [walk]
    intro h
    rcases List.append_eq_nil.mp h with ⟨h1, _⟩
    rcases List.append_eq_nil.mp h1 with ⟨h2, _⟩
    rcases List.append_eq_nil.mp h2 with ⟨h3, _⟩
    exact walk_ne_nil (n + 1) _ _ h3

/-- Gluing adjacent `range'` blocks. -/
theorem range'_glue (a m n : ℕ) :
    List.range' a m 1 ++ List.range' (a + m) n 1 = List.range' a (m + n) 1 := by
  simp [Nat.add_comm]

/-- The linear indices yielded by `walk` count up by one from the starting
`pos`, and the final `pos` carries the next unused index. -/
theorem walk_lin : ∀ (n : ℕ) (o : Orient) (p : HPos),
    (walk n o p).1.map HPos.lin = List.range' p.lin (walk n o p).1.length 1 ∧
    (walk n o p).2.lin = p.lin + (walk n o p).1.length := by
  intro n
  match n with
  | 0 =>
    intro o p
    constructor
    · simp [walk, emit4, stepMove, List.range']
    · simp [walk, emit4, stepMove]
  | 1 =>
    intro o p
    constructor
    · simp [walk, emit4, stepMove, List.range']
    · simp [walk, emit4, stepMove]
  | n + 2 =>
    intro o p
    have h1 := walk_lin (n + 1) (inception o).1 p
    have h2 := walk_lin (n + 1) (inception o).2.1 (walk (n + 1) (inception o).1 p).2
    have h3 := walk_lin (n + 1) (inception o).2.2.1
      (walk (n + 1) (inception o).2.1 (walk (n + 1) (inception o).1 p).2).2
    have h4 := walk_lin (n + 1) (inception o).2.2.2
      (walk (n + 1) (inception o).2.2.1
        (walk (n + 1) (inception o).2.1 (walk (n + 1) (inception o).1 p).2).2).2
    constructor
    · simp only [walk, List.map_append, List.length_append]
      rw [h1.1, h2.1, h3.1, h4.1, h3.2, h2.2, h1.2, List.append_assoc, List.append_assoc,
        range'_glue, range'_glue, range'_glue]
      congr 1
      omega
    · simp only [walk]
      rw [h4.2, h3.2, h2.2, h1.2]
      simp only [List.length_append]
      ring

/-- Two curve positions differ by exactly one unit in exactly one
coordinate. -/
def UnitStep (p q : HPos) : Prop :=
  (q.y = p.y ∧ (q.x = p.x + 1 ∨ q.x = p.x - 1)) ∨
  (q.x = p.x ∧ (q.y = p.y + 1 ∨ q.y = p.y - 1))

theorem head?_append_some {α : Type} {l l' : List α} {a : α} (h : l.head? = some a) :
    (l ++ l').head? = some a := by
  cases l <;> simp_all

theorem chain_glue {S : HPos → HPos → Prop} {a b : List HPos} {fa : HPos}
    (ha : List.Chain' S (a ++ [fa])) (hb : List.Chain' S b) (hhead : b.head? = some fa) :
    List.Chain' S (a ++ b) := by
  rcases List.chain'_append.mp ha with ⟨ha1, -, hlink⟩
  refine List.chain'_append.mpr ⟨ha1, hb, ?_⟩
  intro x hx y hy
  rw [hhead] at hy
  cases hy
  exact hlink x hx fa rfl

/-- Every yielded step is one unit move away from the previous one; the
first yielded step is the starting `pos`, and the final `pos` is one unit
move beyond the last yielded step. -/
theorem walk_chain : ∀ (n : ℕ) (o : Orient) (p : HPos),
    (walk n o p).1.head? = some p ∧
    List.Chain' UnitStep ((walk n o p).1 ++ [(walk n o p).2]) := by
  intro n
  match n with
  | 0 =>
    intro o p
    refine ⟨by cases o <;> rfl, ?_⟩
    cases o <;> simp [walk, emit4, stepMove, omoves, U, R, D, L, UnitStep] <;> omega
  | 1 =>
    intro o p
    refine ⟨by cases o <;> rfl, ?_⟩
    cases o <;> simp [walk, emit4, stepMove, omoves, U, R, D, L, UnitStep] <;> omega
  | n + 2 =>
    intro o p
    have h1 := walk_chain (n + 1) (inception o).1 p
    have h2 := walk_chain (n + 1) (inception o).2.1 (walk (n + 1) (inception o).1 p).2
    have h3 := walk_chain (n + 1) (inception o).2.2.1
      (walk (n + 1) (inception o).2.1 (walk (n + 1) (inception o).1 p).2).2
    have h4 := walk_chain (n + 1) (inception o).2.2.2
      (walk (n + 1) (inception o).2.2.1
        (walk (n + 1) (inception o).2.1 (walk (n + 1) (inception o).1 p).2).2).2
    constructor
    · simp only [walk]
      exact head?_append_some (head?_append_some (head?_append_some h1.1))
    · simp only [walk, List.append_assoc]
      refine chain_glue h1.2 ?_ ?_
      · refine chain_glue h2.2 ?_ ?_
        · exact chain_glue h3.2 h4.2 (head?_append_some h4.1)
        · exact head?_append_some h3.1
      · exact head?_append_some h2.1

/-! Geometry of the recursive subdivision.  Each orientation enters its
square at a fixed corner and leaves it at a fixed corner; the `inception`
table chains the four sub-squares together.  Corners are expressed relative
to the top-left corner `t` of the square of side `s`. -/

/-- Entry-corner coefficient: the walk of an orientation starts at
`t + (s-1) * entryC`. -/
def entryC : Orient → ℤ × ℤ
  | URDR => (1, 0)
  | RULU => (1, 0)
  | URDD => (1, 0)
  | RULL => (1, 0)
  | LDRR => (0, 1)
  | DLUU => (0, 1)
  | LDRD => (0, 1)
  | DLUL => (0, 1)

/-- Exit-corner coefficient: the walk of an orientation yields its last
step at `t + (s-1) * exitC`. -/
def exitC : Orient → ℤ × ℤ
  | URDR => (1, 1)
  | URDD => (1, 1)
  | LDRR => (1, 1)
  | LDRD => (1, 1)
  | RULU => (0, 0)
  | RULL => (0, 0)
  | DLUU => (0, 0)
  | DLUL => (0, 0)

/-- The fourth (exit) move of an orientation. -/
def lastM (o : Orient) : ℤ × ℤ := (omoves o).2.2.2

/-- Starting `pos` of a walk over the square with top-left corner `t`,
side `s`, first linear index `l0`. -/
def entryPos (o : Orient) (t : ℤ × ℤ) (s : ℤ) (l0 : ℕ) : HPos :=
  ⟨t.1 + (s - 1) * (entryC o).1, t.2 + (s - 1) * (entryC o).2, l0⟩

/-- Final `pos` after a walk yielding `cnt` steps over that square. -/
def exitPos (o : Orient) (t : ℤ × ℤ) (s : ℤ) (cnt : ℕ) (l0 : ℕ) : HPos :=
  ⟨t.1 + (s - 1) * (exitC o).1 + (lastM o).1,
   t.2 + (s - 1) * (exitC o).2 + (lastM o).2, l0 + cnt⟩

/-- The coordinate pair `c = (y, x)` lies in the square with top-left
corner `t` and side `s`. -/
def InSqC (t : ℤ × ℤ) (s : ℤ) (c : ℤ × ℤ) : Prop :=
  t.1 ≤ c.1 ∧ c.1 < t.1 + s ∧ t.2 ≤ c.2 ∧ c.2 < t.2 + s

/-- The full geometric invariant of `walk` at level `n`: distinct
coordinates, confinement to the square, and arrival at the exit corner. -/
def WalkGood (n : ℕ) : Prop :=
  ∀ (o : Orient) (t : ℤ × ℤ) (l0 : ℕ),
    ((walk n o (entryPos o t (2 ^ n) l0)).1.map fun p => (p.y, p.x)).Nodup ∧
    (∀ p ∈ (walk n o (entryPos o t (2 ^ n) l0)).1, InSqC t (2 ^ n) (p.y, p.x)) ∧
    (walk n o (entryPos o t (2 ^ n) l0)).2 = exitPos o t (2 ^ n) (4 ^ n) l0

theorem walkGood_one : WalkGood 1 := by
  intro o t l0
  refine ⟨?_, ?_, ?_⟩ <;>
    cases o <;>
      simp [walk, emit4, stepMove, omoves, entryPos, exitPos, entryC, exitC, lastM,
        U, R, D, L, InSqC, HPos.mk.injEq, Prod.ext_iff] <;>
      omega

theorem coords_disjoint {l l' : List HPos} {ti tj : ℤ × ℤ} {s : ℤ}
    (hi : ∀ p ∈ l, InSqC ti s (p.y, p.x)) (hj : ∀ p ∈ l', InSqC tj s (p.y, p.x))
    (hd : ∀ c, InSqC ti s c → InSqC tj s c → False) :
    (l.map fun p => (p.y, p.x)).Disjoint (l'.map fun p => (p.y, p.x)) := by
  intro a ha ha'
  obtain ⟨p, hp, he⟩ := List.mem_map.mp ha
  obtain ⟨p', hp', he'⟩ := List.mem_map.mp ha'
  exact hd a (he ▸ hi p hp) (he' ▸ hj p' hp')

/-- Chaining the four sub-walks of one `inception` entry: if the four
sub-squares tile correctly (entry of each sub-walk is the exit of the
previous one, all within the enclosing square, pairwise disjoint), the
invariant propagates one level up. -/
theorem walk_glue (n : ℕ) (o o1 o2 o3 o4 : Orient) (t t1 t2 t3 t4 : ℤ × ℤ) (l0 : ℕ)
    (hw : WalkGood (n + 1))
    (hinc : inception o = (o1, o2, o3, o4))
    (hp1 : entryPos o t (2 ^ (n + 2)) l0 = entryPos o1 t1 (2 ^ (n + 1)) l0)
    (hx1 : exitPos o1 t1 (2 ^ (n + 1)) (4 ^ (n + 1)) l0 =
           entryPos o2 t2 (2 ^ (n + 1)) (l0 + 4 ^ (n + 1)))
    (hx2 : exitPos o2 t2 (2 ^ (n + 1)) (4 ^ (n + 1)) (l0 + 4 ^ (n + 1)) =
           entryPos o3 t3 (2 ^ (n + 1)) (l0 + 4 ^ (n + 1) + 4 ^ (n + 1)))
    (hx3 : exitPos o3 t3 (2 ^ (n + 1)) (4 ^ (n + 1)) (l0 + 4 ^ (n + 1) + 4 ^ (n + 1)) =
           entryPos o4 t4 (2 ^ (n + 1)) (l0 + 4 ^ (n + 1) + 4 ^ (n + 1) + 4 ^ (n + 1)))
    (hx4 : exitPos o4 t4 (2 ^ (n + 1)) (4 ^ (n + 1))
             (l0 + 4 ^ (n + 1) + 4 ^ (n + 1) + 4 ^ (n + 1)) =
           exitPos o t (2 ^ (n + 2)) (4 ^ (n + 2)) l0)
    (hs1 : ∀ c, InSqC t1 (2 ^ (n + 1)) c → InSqC t (2 ^ (n + 2)) c)
    (hs2 : ∀ c, InSqC t2 (2 ^ (n + 1)) c → InSqC t (2 ^ (n + 2)) c)
    (hs3 : ∀ c, InSqC t3 (2 ^ (n + 1)) c → InSqC t (2 ^ (n + 2)) c)
    (hs4 : ∀ c, InSqC t4 (2 ^ (n + 1)) c → InSqC t (2 ^ (n + 2)) c)
    (d12 : ∀ c, InSqC t1 (2 ^ (n + 1)) c → InSqC t2 (2 ^ (n + 1)) c → False)
    (d13 : ∀ c, InSqC t1 (2 ^ (n + 1)) c → InSqC t3 (2 ^ (n + 1)) c → False)
    (d14 : ∀ c, InSqC t1 (2 ^ (n + 1)) c → InSqC t4 (2 ^ (n + 1)) c → False)
    (d23 : ∀ c, InSqC t2 (2 ^ (n + 1)) c → InSqC t3 (2 ^ (n + 1)) c → False)
    (d24 : ∀ c, InSqC t2 (2 ^ (n + 1)) c → InSqC t4 (2 ^ (n + 1)) c → False)
    (d34 : ∀ c, InSqC t3 (2 ^ (n + 1)) c → InSqC t4 (2 ^ (n + 1)) c → False) :
    ((walk (n + 2) o (entryPos o t (2 ^ (n + 2)) l0)).1.map fun p => (p.y, p.x)).Nodup ∧
    (∀ p ∈ (walk (n + 2) o (entryPos o t (2 ^ (n + 2)) l0)).1,
      InSqC t (2 ^ (n + 2)) (p.y, p.x)) ∧
    (walk (n + 2) o (entryPos o t (2 ^ (n + 2)) l0)).2 =
      exitPos o t (2 ^ (n + 2)) (4 ^ (n + 2)) l0 := by
  obtain ⟨nd1, in1, ex1⟩ := hw o1 t1 l0
  obtain ⟨nd2, in2, ex2⟩ := hw o2 t2 (l0 + 4 ^ (n + 1))
  obtain ⟨nd3, in3, ex3⟩ := hw o3 t3 (l0 + 4 ^ (n + 1) + 4 ^ (n + 1))
  obtain ⟨nd4, in4, ex4⟩ := hw o4 t4 (l0 + 4 ^ (n + 1) + 4 ^ (n + 1) + 4 ^ (n + 1))
  have hstep :
      walk (n + 2) o (entryPos o t (2 ^ (n + 2)) l0) =
        ((walk (n + 1) o1 (entryPos o1 t1 (2 ^ (n + 1)) l0)).1 ++
          (walk (n + 1) o2 (entryPos o2 t2 (2 ^ (n + 1)) (l0 + 4 ^ (n + 1)))).1 ++
          (walk (n + 1) o3
            (entryPos o3 t3 (2 ^ (n + 1)) (l0 + 4 ^ (n + 1) + 4 ^ (n + 1)))).1 ++
          (walk (n + 1) o4
            (entryPos o4 t4 (2 ^ (n + 1))
              (l0 + 4 ^ (n + 1) + 4 ^ (n + 1) + 4 ^ (n + 1)))).1,
         (walk (n + 1) o4
            (entryPos o4 t4 (2 ^ (n + 1))
              (l0 + 4 ^ (n + 1) + 4 ^ (n + 1) + 4 ^ (n + 1)))).2) := by
    show walk (n + 2) o (entryPos o t (2 ^ (n + 2)) l0) = _
    simp only [walk, hinc]
    rw [hp1, ex1, hx1, ex2, hx2, ex3, hx3]
  rw [hstep]
  refine ⟨?_, ?_, ?_⟩
  · simp only [List.map_append, List.append_assoc]
    rw [List.nodup_append, List.nodup_append, List.nodup_append]
    refine ⟨nd1, ⟨nd2, ⟨nd3, nd4, coords_disjoint in3 in4 d34⟩, ?_⟩, ?_⟩
    · rw [List.disjoint_append_right]
      exact ⟨coords_disjoint in2 in3 d23, coords_disjoint in2 in4 d24⟩
    · rw [List.disjoint_append_right, List.disjoint_append_right]
      exact ⟨coords_disjoint in1 in2 d12,
        coords_disjoint in1 in3 d13, coords_disjoint in1 in4 d14⟩
  · intro p hp
    simp only [List.mem_append] at hp
    rcases hp with ((hp | hp) | hp) | hp
    · exact hs1 _ (in1 p hp)
    · exact hs2 _ (in2 p hp)
    · exact hs3 _ (in3 p hp)
    · exact hs4 _ (in4 p hp)
  · rw [ex4, hx4]

/-- The geometric invariant holds at every level `n ≥ 1`, by induction using
the `inception` table: for each orientation the four sub-walks traverse the
bottom-left / top-left / top-right / bottom-right quadrants in the order
dictated by the table, and the chaining equations hold. -/
theorem walkGood_all : ∀ n : ℕ, WalkGood (n + 1) := by
  intro n
  induction n with
  | zero => exact walkGood_one
  | succ n ih =>
    intro o t l0
    cases o <;>
      [refine walk_glue n URDR RULU URDR URDD LDRR t (t.1 + 2^(n+1), t.2) (t.1, t.2)
          (t.1, t.2 + 2^(n+1)) (t.1 + 2^(n+1), t.2 + 2^(n+1)) l0 ih rfl ?_ ?_ ?_ ?_ ?_ ?_ ?_
          ?_ ?_ ?_ ?_ ?_ ?_ ?_ ?_;
        refine walk_glue n RULU URDR RULU RULL DLUU t (t.1 + 2^(n+1), t.2)
          (t.1 + 2^(n+1), t.2 + 2^(n+1)) (t.1, t.2 + 2^(n+1)) (t.1, t.2) l0 ih rfl ?_ ?_ ?_ ?_
          ?_ ?_ ?_ ?_ ?_ ?_ ?_ ?_ ?_ ?_ ?_;
        refine walk_glue n URDD RULU URDR URDD LDRD t (t.1 + 2^(n+1), t.2) (t.1, t.2)
          (t.1, t.2 + 2^(n+1)) (t.1 + 2^(n+1), t.2 + 2^(n+1)) l0 ih rfl ?_ ?_ ?_ ?_ ?_ ?_ ?_
          ?_ ?_ ?_ ?_ ?_ ?_ ?_ ?_;
        refine walk_glue n LDRR DLUL LDRD LDRR URDR t (t.1, t.2 + 2^(n+1)) (t.1, t.2)
          (t.1 + 2^(n+1), t.2) (t.1 + 2^(n+1), t.2 + 2^(n+1)) l0 ih rfl ?_ ?_ ?_ ?_ ?_ ?_ ?_
          ?_ ?_ ?_ ?_ ?_ ?_ ?_ ?_;
        refine walk_glue n RULL URDR RULU RULL DLUL t (t.1 + 2^(n+1), t.2)
          (t.1 + 2^(n+1), t.2 + 2^(n+1)) (t.1, t.2 + 2^(n+1)) (t.1, t.2) l0 ih rfl ?_ ?_ ?_ ?_
          ?_ ?_ ?_ ?_ ?_ ?_ ?_ ?_ ?_ ?_ ?_;
        refine walk_glue n DLUU LDRD DLUL DLUU RULU t (t.1, t.2 + 2^(n+1))
          (t.1 + 2^(n+1), t.2 + 2^(n+1)) (t.1 + 2^(n+1), t.2) (t.1, t.2) l0 ih rfl ?_ ?_ ?_ ?_
          ?_ ?_ ?_ ?_ ?_ ?_ ?_ ?_ ?_ ?_ ?_;
        refine walk_glue n LDRD DLUL LDRD LDRR URDD t (t.1, t.2 + 2^(n+1)) (t.1, t.2)
          (t.1 + 2^(n+1), t.2) (t.1 + 2^(n+1), t.2 + 2^(n+1)) l0 ih rfl ?_ ?_ ?_ ?_ ?_ ?_ ?_
          ?_ ?_ ?_ ?_ ?_ ?_ ?_ ?_;
        refine walk_glue n DLUL LDRD DLUL DLUU RULL t (t.1, t.2 + 2^(n+1))
          (t.1 + 2^(n+1), t.2 + 2^(n+1)) (t.1 + 2^(n+1), t.2) (t.1, t.2) l0 ih rfl ?_ ?_ ?_ ?_
          ?_ ?_ ?_ ?_ ?_ ?_ ?_ ?_ ?_ ?_ ?_] <;>
      first
        | (simp only [entryPos, exitPos, entryC, exitC, lastM, omoves, U, R, D, L,
             HPos.mk.injEq]
           refine ⟨by ring, by ring, by ring⟩)
        | (intro c
           have hpow : (2:ℤ)^(n+2) = 2^(n+1) + 2^(n+1) := by ring
           have hpos : (0:ℤ) < 2^(n+1) := by positivity
           simp only [InSqC]
           intros
           omega)

/-- The source's starting `pos` `[2**order - 1, 0, 0]` is the entry corner
of the `URDR` orientation for the square rooted at `(0, 0)`. -/
theorem hilbert_eq_walk (N : ℕ) :
    hilbert N = (walk N URDR (entryPos URDR (0, 0) (2 ^ N) 0)).1 := by
  unfold hilbert
  congr 1
  simp [entryPos, entryC]

/-- **C1, counterexample.**  At order `0` the generator yields `4` steps,
not `4 ^ 0 = 1`: the `level <= 1` branch of `walk` still emits the four
base moves.  So the claim, quantified over every order `N ≥ 0`, is false. -/
theorem hilbert_order_zero_counterexample : ¬ (hilbert 0).length = 4 ^ 0 := by decide

/-- **C1 (amended: order `N ≥ 1`).**  For every order `N ≥ 1` the hilbert
generator yields exactly `4 ^ N` steps, with pairwise distinct `(row, col)`
pairs covering the whole `[0, 2^N) × [0, 2^N)` grid, linear indices
`0 .. 4^N - 1` in generation order, consecutive steps one unit apart in
exactly one coordinate, and for order `1` the yielded sequence is exactly
`(1,0) -> (0,0) -> (0,1) -> (1,1)`. -/
theorem hilbert_spec (N : ℕ) (hN : 1 ≤ N) :
    (hilbert N).length = 4 ^ N ∧
    ((hilbert N).map fun p => (p.y, p.x)).Nodup ∧
    (∀ p ∈ hilbert N, 0 ≤ p.y ∧ p.y < 2 ^ N ∧ 0 ≤ p.x ∧ p.x < 2 ^ N) ∧
    (∀ y x : ℤ, 0 ≤ y → y < 2 ^ N → 0 ≤ x → x < 2 ^ N →
      ∃ p ∈ hilbert N, p.y = y ∧ p.x = x) ∧
    (hilbert N).map HPos.lin = List.range (4 ^ N) ∧
    List.Chain' UnitStep (hilbert N) ∧
    (N = 1 → hilbert N = [⟨1, 0, 0⟩, ⟨0, 0, 1⟩, ⟨0, 1, 2⟩, ⟨1, 1, 3⟩]) := by
  obtain ⟨n, rfl⟩ := Nat.exists_eq_add_of_le hN
  have hlen : (hilbert (1 + n)).length = 4 ^ (1 + n) := by
    rw [Nat.add_comm 1 n, hilbert_eq_walk]
    exact walk_length n URDR _
  obtain ⟨hnd, hin, -⟩ := walkGood_all n URDR (0, 0) 0
  rw [Nat.add_comm 1 n]
  rw [Nat.add_comm 1 n] at hlen
  have hbounds : ∀ p ∈ hilbert (n + 1),
      0 ≤ p.y ∧ p.y < 2 ^ (n + 1) ∧ 0 ≤ p.x ∧ p.x < 2 ^ (n + 1) := by
    intro p hp
    rw [hilbert_eq_walk] at hp
    have := hin p hp
    simp only [InSqC] at this
    omega
  refine ⟨hlen, ?_, hbounds, ?_, ?_, ?_, ?_⟩
  · rw [hilbert_eq_walk]
    exact hnd
  · -- coverage by counting: `4 ^ (n+1)` distinct coordinates inside a grid
    -- of exactly `4 ^ (n+1)` cells fill it entirely
    intro y x hy0 hy1 hx0 hx1
    set cells : List (ℤ × ℤ) := (hilbert (n + 1)).map fun p => (p.y, p.x) with hcells
    have hndc : cells.Nodup := by rw [hcells, hilbert_eq_walk]; exact hnd
    set S : Finset (ℤ × ℤ) :=
      Finset.Ico (0 : ℤ) (2 ^ (n + 1)) ×ˢ Finset.Ico (0 : ℤ) (2 ^ (n + 1)) with hS
    have hsub : cells.toFinset ⊆ S := by
      intro c hc
      obtain ⟨p, hp, rfl⟩ := List.mem_map.mp (List.mem_toFinset.mp hc)
      have := hbounds p hp
      simp only [hS, Finset.mem_product, Finset.mem_Ico]
      exact ⟨⟨this.1, this.2.1⟩, this.2.2⟩
    have hScard : S.card = 4 ^ (n + 1) := by
      have h2 : ((2 : ℤ) ^ (n + 1) - 0).toNat = 2 ^ (n + 1) := by
        rw [sub_zero, show ((2 : ℤ) ^ (n + 1)) = ((2 ^ (n + 1) : ℕ) : ℤ) from by push_cast; ring,
          Int.toNat_natCast]
      simp only [hS, Finset.card_product, Int.card_Ico, h2]
      rw [← Nat.mul_pow]
    have hccard : cells.toFinset.card = 4 ^ (n + 1) := by
      rw [List.toFinset_card_of_nodup hndc, hcells, List.length_map, hlen]
    have heq : cells.toFinset = S :=
      Finset.eq_of_subset_of_card_le hsub (by rw [hScard, hccard])
    have hmem : (y, x) ∈ cells.toFinset := by
      rw [heq]
      simp only [hS, Finset.mem_product, Finset.mem_Ico]
      exact ⟨⟨hy0, hy1⟩, hx0, hx1⟩
    obtain ⟨p, hp, hpe⟩ := List.mem_map.mp (List.mem_toFinset.mp hmem)
    exact ⟨p, hp, congrArg Prod.fst hpe, congrArg Prod.snd hpe⟩
  · unfold hilbert
    rw [(walk_lin (n + 1) URDR ⟨2 ^ (n + 1) - 1, 0, 0⟩).1]
    show List.range' 0 _ 1 = _
    rw [← List.range_eq_range']
    exact congrArg List.range hlen
  · have h := (walk_chain (n + 1) URDR ⟨2 ^ (n + 1) - 1, 0, 0⟩).2
    exact (List.chain'_append.mp h).1
  · intro h
    rw [h]
    decide

/-- **C1, witness** for the amended theorem at order `1`. -/
theorem hilbert_spec_witness :
    (hilbert 1).length = 4 ^ 1 ∧ hilbert 1 = [⟨1, 0, 0⟩, ⟨0, 0, 1⟩, ⟨0, 1, 2⟩, ⟨1, 1, 3⟩] :=
  ⟨(hilbert_spec 1 le_rfl).1, (hilbert_spec 1 le_rfl).2.2.2.2.2.2 rfl⟩

/-! ## The raster (linear) and boustrophedon (snake) generators — lines 166-185 -/

/-- `linear(order)`: row-major scan, left to right, top to bottom.  The
running counter `l` equals `y * edge_len + x` at yield time. -/
def linear (order : ℕ) : List HPos :=
  (List.range (2 ^ order)).flatMap fun (y : ℕ) =>
    (List.range (2 ^ order)).map fun (x : ℕ) => ⟨y, x, y * 2 ^ order + x⟩

/-- `snake(order)`: the outer loop steps `y` by two (`range(0, edge_len, 2)`
has `(edge_len + 1) / 2` iterations); each iteration yields row `y` left to
right, then row `y + 1` right to left (`range(edge_len - 1, -1, -1)`), the
counter `l` continuing across rows. -/
def snake (order : ℕ) : List HPos :=
  (List.range' 0 ((2 ^ order + 1) / 2) 2).flatMap fun (y : ℕ) =>
    ((List.range (2 ^ order)).map fun (x : ℕ) => ⟨y, x, y * 2 ^ order + x⟩) ++
    ((List.range (2 ^ order)).reverse.map fun (x : ℕ) =>
      ⟨y + 1, x, (y + 1) * 2 ^ order + (2 ^ order - 1 - x)⟩)

example : linear 1 = [⟨0, 0, 0⟩, ⟨0, 1, 1⟩, ⟨1, 0, 2⟩, ⟨1, 1, 3⟩] := by decide
example : snake 1 = [⟨0, 0, 0⟩, ⟨0, 1, 1⟩, ⟨1, 1, 2⟩, ⟨1, 0, 3⟩] := by decide
example : snake 0 = [⟨0, 0, 0⟩, ⟨1, 0, 1⟩] := by decide

/-- Step `l` of a row-major scan of an `e × e` grid. -/
def rasterAt (e : ℕ) (l : ℕ) : HPos := ⟨(l / e : ℕ), (l % e : ℕ), l⟩

/-- Step `l` of a boustrophedon scan of an `e × e` grid: odd rows run right
to left. -/
def snakeAt (e : ℕ) (l : ℕ) : HPos :=
  ⟨(l / e : ℕ), if l / e % 2 = 0 then ((l % e : ℕ) : ℤ) else ((e - 1 - l % e : ℕ) : ℤ), l⟩

theorem linear_closed (e : ℕ) : ∀ m : ℕ,
    (List.range m).flatMap
        (fun (y : ℕ) => (List.range e).map fun (x : ℕ) => (⟨y, x, y * e + x⟩ : HPos)) =
      (List.range (m * e)).map (rasterAt e) := by
  intro m
  induction m with
  | zero => simp
  | succ m ih =>
    rw [List.range_succ, List.flatMap_append, ih,
      show (m + 1) * e = m * e + e from by ring, List.range_add,
      List.map_append, List.map_map]
    congr 1
    simp only [List.flatMap_cons, List.flatMap_nil, List.append_nil]
    refine List.map_congr_left ?_
    intro x hx
    have hxe : x < e := List.mem_range.mp hx
    have he : 0 < e := by omega
    have hdiv : (m * e + x) / e = m := by
      rw [Nat.mul_comm m e, Nat.mul_add_div he, Nat.div_eq_of_lt hxe, Nat.add_zero]
    have hmod : (m * e + x) % e = x := by
      rw [Nat.mul_comm m e, Nat.mul_add_mod, Nat.mod_eq_of_lt hxe]
    simp [rasterAt, hdiv, hmod]

theorem snake_closed (e : ℕ) (he : 0 < e) : ∀ m : ℕ,
    (List.range' 0 m 2).flatMap
        (fun (y : ℕ) =>
          ((List.range e).map fun (x : ℕ) => (⟨y, x, y * e + x⟩ : HPos)) ++
          ((List.range e).reverse.map fun (x : ℕ) =>
            (⟨y + 1, x, (y + 1) * e + (e - 1 - x)⟩ : HPos))) =
      (List.range (m * (2 * e))).map (snakeAt e) := by
  intro m
  induction m with
  | zero => simp
  | succ m ih =>
    rw [List.range'_concat, List.flatMap_append, ih,
      show (m + 1) * (2 * e) = m * (2 * e) + (e + e) from by ring, List.range_add,
      List.map_append, List.map_map]
    congr 1
    simp only [List.flatMap_cons, List.flatMap_nil, List.append_nil, Nat.zero_add]
    rw [List.range_add, List.map_append, List.map_map]
    congr 1
    · -- even row `2 * m`, left to right
      refine List.map_congr_left ?_
      intro x hx
      have hxe : x < e := List.mem_range.mp hx
      have hdiv : (2 * m * e + x) / e = 2 * m := by
        rw [Nat.mul_comm (2 * m) e, Nat.mul_add_div he, Nat.div_eq_of_lt hxe, Nat.add_zero]
      have hmod : (2 * m * e + x) % e = x := by
        rw [Nat.mul_comm (2 * m) e, Nat.mul_add_mod, Nat.mod_eq_of_lt hxe]
      have hl : m * (2 * e) + x = 2 * m * e + x := by ring
      simp only [Function.comp_apply, hl, snakeAt, hdiv, hmod, Nat.mul_mod_right]
      simp only [if_pos rfl, HPos.mk.injEq]
      exact ⟨trivial, rfl, by ring⟩
    · -- odd row `2 * m + 1`, right to left
      rw [List.range_eq_range', List.reverse_range', ← List.range_eq_range', List.map_map]
      refine List.map_congr_left ?_
      intro i hi
      have hie : i < e := List.mem_range.mp hi
      have hdiv : ((2 * m + 1) * e + i) / e = 2 * m + 1 := by
        rw [Nat.mul_comm (2 * m + 1) e, Nat.mul_add_div he, Nat.div_eq_of_lt hie, Nat.add_zero]
      have hmod : ((2 * m + 1) * e + i) % e = i := by
        rw [Nat.mul_comm (2 * m + 1) e, Nat.mul_add_mod, Nat.mod_eq_of_lt hie]
      have hl : m * (2 * e) + (e + i) = (2 * m + 1) * e + i := by ring
      have hodd : (2 * m + 1) % 2 = 1 := by omega
      simp only [Function.comp_apply, hl, snakeAt, hdiv, hmod, hodd]
      simp only [Nat.one_ne_zero, if_false, HPos.mk.injEq]
      have hxi : 0 + e - 1 - i = e - 1 - i := by omega
      have hre : e - 1 - (e - 1 - i) = i := by omega
      rw [hxi, hre]
      refine ⟨by push_cast; ring, rfl, by ring⟩

/-- Coverage by counting: a list of steps with pairwise distinct coordinates
inside an `e × e` grid, of length `e * e`, visits every cell of the grid. -/
theorem grid_coverage {steps : List HPos} {e : ℕ}
    (hnd : (steps.map fun p => (p.y, p.x)).Nodup)
    (hb : ∀ p ∈ steps, 0 ≤ p.y ∧ p.y < (e : ℤ) ∧ 0 ≤ p.x ∧ p.x < (e : ℤ))
    (hlen : steps.length = e * e) :
    ∀ y x : ℤ, 0 ≤ y → y < (e : ℤ) → 0 ≤ x → x < (e : ℤ) →
      ∃ p ∈ steps, p.y = y ∧ p.x = x := by
  intro y x hy0 hy1 hx0 hx1
  set cells := steps.map fun p => (p.y, p.x) with hcells
  set S : Finset (ℤ × ℤ) := Finset.Ico (0 : ℤ) (e : ℤ) ×ˢ Finset.Ico (0 : ℤ) (e : ℤ) with hS
  have hsub : cells.toFinset ⊆ S := by
    intro c hc
    obtain ⟨p, hp, rfl⟩ := List.mem_map.mp (List.mem_toFinset.mp hc)
    have := hb p hp
    simp only [hS, Finset.mem_product, Finset.mem_Ico]
    exact ⟨⟨this.1, this.2.1⟩, this.2.2⟩
  have hScard : S.card = e * e := by
    simp only [hS, Finset.card_product, Int.card_Ico, sub_zero, Int.toNat_natCast]
  have hccard : cells.toFinset.card = e * e := by
    rw [List.toFinset_card_of_nodup hnd, hcells, List.length_map, hlen]
  have heq : cells.toFinset = S :=
    Finset.eq_of_subset_of_card_le hsub (by rw [hScard, hccard])
  have hmem : (y, x) ∈ cells.toFinset := by
    rw [heq]
    simp only [hS, Finset.mem_product, Finset.mem_Ico]
    exact ⟨⟨hy0, hy1⟩, hx0, hx1⟩
  obtain ⟨p, hp, hpe⟩ := List.mem_map.mp (List.mem_toFinset.mp hmem)
  exact ⟨p, hp, congrArg Prod.fst hpe, congrArg Prod.snd hpe⟩

theorem rasterAt_coords_nodup (e n : ℕ) :
    (((List.range n).map (rasterAt e)).map fun p => (p.y, p.x)).Nodup := by
  rw [List.map_map]
  refine List.Nodup.map_on ?_ (List.nodup_range n)
  intro l _ l' _ hll
  simp only [Function.comp_apply, rasterAt, Prod.mk.injEq, Nat.cast_inj] at hll
  calc l = e * (l / e) + l % e := (Nat.div_add_mod l e).symm
    _ = e * (l' / e) + l' % e := by rw [hll.1, hll.2]
    _ = l' := Nat.div_add_mod l' e

theorem snakeAt_coords_nodup (e n : ℕ) (he : 0 < e) :
    (((List.range n).map (snakeAt e)).map fun p => (p.y, p.x)).Nodup := by
  rw [List.map_map]
  refine List.Nodup.map_on ?_ (List.nodup_range n)
  intro l _ l' _ hll
  simp only [Function.comp_apply, snakeAt, Prod.mk.injEq, Nat.cast_inj] at hll
  obtain ⟨hdiv, hx⟩ := hll
  have hml : l % e < e := Nat.mod_lt _ he
  have hml' : l' % e < e := Nat.mod_lt _ he
  have hmod : l % e = l' % e := by
    rw [hdiv] at hx
    by_cases hpar : l' / e % 2 = 0
    · rw [if_pos hpar, if_pos hpar, Nat.cast_inj] at hx
      exact hx
    · rw [if_neg hpar, if_neg hpar, Nat.cast_inj] at hx
      omega
  calc l = e * (l / e) + l % e := (Nat.div_add_mod l e).symm
    _ = e * (l' / e) + l' % e := by rw [hdiv, hmod]
    _ = l' := Nat.div_add_mod l' e

theorem rasterAt_bounds (e : ℕ) (he : 0 < e) :
    ∀ p ∈ (List.range (e * e)).map (rasterAt e),
      0 ≤ p.y ∧ p.y < (e : ℤ) ∧ 0 ≤ p.x ∧ p.x < (e : ℤ) := by
  intro p hp
  obtain ⟨l, hl, rfl⟩ := List.mem_map.mp hp
  have hle : l < e * e := List.mem_range.mp hl
  have h1 : l / e < e := Nat.div_lt_of_lt_mul (by omega)
  have h2 : l % e < e := Nat.mod_lt _ he
  simp only [rasterAt]
  refine ⟨by positivity, ?_, by positivity, ?_⟩ <;> exact_mod_cast ‹_ < e›

theorem snakeAt_bounds (e : ℕ) (he : 0 < e) :
    ∀ p ∈ (List.range (e * e)).map (snakeAt e),
      0 ≤ p.y ∧ p.y < (e : ℤ) ∧ 0 ≤ p.x ∧ p.x < (e : ℤ) := by
  intro p hp
  obtain ⟨l, hl, rfl⟩ := List.mem_map.mp hp
  have hle : l < e * e := List.mem_range.mp hl
  have h1 : l / e < e := Nat.div_lt_of_lt_mul (by omega)
  have h2 : l % e < e := Nat.mod_lt _ he
  simp only [snakeAt]
  refine ⟨by positivity, by exact_mod_cast h1, ?_, ?_⟩
  · split <;> positivity
  · split
    · exact_mod_cast h2
    · have : e - 1 - l % e < e := by omega
      exact_mod_cast this

theorem map_lin_rasterAt (e n : ℕ) :
    ((List.range n).map (rasterAt e)).map HPos.lin = List.range n := by
  rw [List.map_map, show HPos.lin ∘ rasterAt e = id from funext fun l => rfl, List.map_id]

theorem map_lin_snakeAt (e n : ℕ) :
    ((List.range n).map (snakeAt e)).map HPos.lin = List.range n := by
  rw [List.map_map, show HPos.lin ∘ snakeAt e = id from funext fun l => rfl, List.map_id]

theorem pow_two_mul_self (order : ℕ) : 2 ^ order * 2 ^ order = 4 ^ order := by
  rw [← Nat.mul_pow]

theorem linear_eq_closed (order : ℕ) :
    linear order = (List.range (4 ^ order)).map (rasterAt (2 ^ order)) := by
  unfold linear
  rw [linear_closed (2 ^ order) (2 ^ order), pow_two_mul_self]

theorem snake_eq_closed (order : ℕ) (h : 1 ≤ order) :
    snake order = (List.range (4 ^ order)).map (snakeAt (2 ^ order)) := by
  obtain ⟨k, rfl⟩ := Nat.exists_eq_add_of_le h
  have he : 0 < 2 ^ (1 + k) := Nat.pos_pow_of_pos _ (by norm_num)
  have h2 : (2 : ℕ) ^ (1 + k) = 2 * 2 ^ k := by rw [pow_add, pow_one]
  have hm : (2 ^ (1 + k) + 1) / 2 = 2 ^ k := by omega
  unfold snake
  rw [hm, snake_closed (2 ^ (1 + k)) he (2 ^ k)]
  congr 1
  rw [show (4 : ℕ) ^ (1 + k) = 2 ^ (1 + k) * 2 ^ (1 + k) from (pow_two_mul_self _).symm, h2]
  ring

/-- **C4, counterexample.**  At order `0` the snake generator yields `2`
steps, not `4 ^ 0 = 1`: the body of the stepped `range(0, edge_len, 2)` loop
always emits a second, reversed row `y + 1`, which at order `0` lies outside
the grid.  So the claim, which quantifies over every order `≥ 0`, is false. -/
theorem snake_order_zero_counterexample : ¬ (snake 0).length = 4 ^ 0 := by decide

/-- **C4 (amended: raster for every order, snake for order `≥ 1`).**  The
raster generator is a bijective row-major enumeration at every order; the
snake generator is bijective at every order `≥ 1` (at order `0` it emits a
step outside the grid), with odd rows traversed right to left (its step at
linear index `l` has column `2^order - 1 - l % 2^order` when the row
`l / 2^order` is odd, as recorded by `snakeAt`). -/
theorem linear_snake_spec (order : ℕ) :
    (linear order).length = 4 ^ order ∧
    linear order = (List.range (4 ^ order)).map (rasterAt (2 ^ order)) ∧
    ((linear order).map fun p => (p.y, p.x)).Nodup ∧
    (∀ p ∈ linear order,
      0 ≤ p.y ∧ p.y < ((2 ^ order : ℕ) : ℤ) ∧ 0 ≤ p.x ∧ p.x < ((2 ^ order : ℕ) : ℤ)) ∧
    (∀ y x : ℤ, 0 ≤ y → y < ((2 ^ order : ℕ) : ℤ) → 0 ≤ x → x < ((2 ^ order : ℕ) : ℤ) →
      ∃ p ∈ linear order, p.y = y ∧ p.x = x) ∧
    (linear order).map HPos.lin = List.range (4 ^ order) ∧
    (1 ≤ order →
      (snake order).length = 4 ^ order ∧
      snake order = (List.range (4 ^ order)).map (snakeAt (2 ^ order)) ∧
      ((snake order).map fun p => (p.y, p.x)).Nodup ∧
      (∀ p ∈ snake order,
        0 ≤ p.y ∧ p.y < ((2 ^ order : ℕ) : ℤ) ∧ 0 ≤ p.x ∧ p.x < ((2 ^ order : ℕ) : ℤ)) ∧
      (∀ y x : ℤ, 0 ≤ y → y < ((2 ^ order : ℕ) : ℤ) → 0 ≤ x → x < ((2 ^ order : ℕ) : ℤ) →
        ∃ p ∈ snake order, p.y = y ∧ p.x = x) ∧
      (snake order).map HPos.lin = List.range (4 ^ order)) := by
  have he : 0 < 2 ^ order := Nat.pos_pow_of_pos _ (by norm_num)
  have h4 : 2 ^ order * 2 ^ order = 4 ^ order := pow_two_mul_self order
  have hcfL := linear_eq_closed order
  have hndL : ((linear order).map fun p => (p.y, p.x)).Nodup := by
    rw [hcfL]; exact rasterAt_coords_nodup _ _
  have hbL : ∀ p ∈ linear order,
      0 ≤ p.y ∧ p.y < ((2 ^ order : ℕ) : ℤ) ∧ 0 ≤ p.x ∧ p.x < ((2 ^ order : ℕ) : ℤ) := by
    rw [hcfL, ← h4]; exact rasterAt_bounds _ he
  have hlenL : (linear order).length = 4 ^ order := by rw [hcfL]; simp
  refine ⟨hlenL, hcfL, hndL, hbL, ?_, ?_, ?_⟩
  · exact grid_coverage hndL hbL (by rw [hlenL]; exact h4.symm)
  · rw [hcfL]; exact map_lin_rasterAt _ _
  · intro h1
    have hcfS := snake_eq_closed order h1
    have hndS : ((snake order).map fun p => (p.y, p.x)).Nodup := by
      rw [hcfS]; exact snakeAt_coords_nodup _ _ he
    have hbS : ∀ p ∈ snake order,
        0 ≤ p.y ∧ p.y < ((2 ^ order : ℕ) : ℤ) ∧ 0 ≤ p.x ∧ p.x < ((2 ^ order : ℕ) : ℤ) := by
      rw [hcfS, ← h4]; exact snakeAt_bounds _ he
    have hlenS : (snake order).length = 4 ^ order := by rw [hcfS]; simp
    refine ⟨hlenS, hcfS, hndS, hbS, ?_, ?_⟩
    · exact grid_coverage hndS hbS (by rw [hlenS]; exact h4.symm)
    · rw [hcfS]; exact map_lin_snakeAt _ _

/-- **C4, witness** at order `1` for the snake half of the amended claim. -/
theorem linear_snake_spec_witness : (snake 1).length = 4 ^ 1 :=
  ((linear_snake_spec 1).2.2.2.2.2.2 le_rfl).1

/-! ## Order and size selection — `choose_order_size`, lines 495-510 -/

/-- The exceptions raised by the embedded code. -/
inductive GErr : Type
  | heatmapError
  | valueError
  | stateError
  | stopIteration
  | unsupported
deriving DecidableEq, Repr

/-- `choose_order_size(order, size, total_bytes, default_granularity)`.
The auto-derived order is `min(10, ceil(log2(sqrt(total_bytes /
default_granularity))))` computed in floating point; it is embedded on
exact rationals as `min 10 (Int.clog 4 _)`, which equals the mathematical
`min(10, ceil(log2(sqrt(x))))` (see `ceil_log2_sqrt_eq_clog4`). -/
def choose_order_size (order size : Option ℤ) (total_bytes default_granularity : ℚ) :
    Except GErr (ℤ × ℤ) :=
  let o := match order with
    | none => min 10 (Int.clog 4 (total_bytes / default_granularity))
    | some o => o
  let s := match size with
    | none => if o > 10 then o else 10
    | some s => s
  if s < o then
    if order.isNone then .ok (s, s) else .error .heatmapError
  else .ok (o, s)

/-- `ceil(log2(sqrt(x)))` equals the integer ceiling logarithm in base 4,
for positive rational `x`; this justifies embedding the float expression
`math.ceil(math.log(math.sqrt(x), 2))` as `Int.clog 4 x`. -/
theorem ceil_log2_sqrt_eq_clog4 (q : ℚ) (hq : 0 < q) :
    ⌈Real.logb 2 (Real.sqrt (q : ℝ))⌉ = Int.clog 4 q := by
  have hq' : (0 : ℝ) < (q : ℝ) := by exact_mod_cast hq
  have hlog4 : Real.log 4 = 2 * Real.log 2 := by
    rw [show (4 : ℝ) = 2 ^ 2 by norm_num, Real.log_pow]
    push_cast
    ring
  have h1 : Real.logb 2 (Real.sqrt (q : ℝ)) = Real.logb 4 (q : ℝ) := by
    simp only [Real.logb]
    rw [Real.log_sqrt hq'.le, hlog4]
    ring
  have h2 : Real.logb 4 (q : ℝ) = Real.logb ((4 : ℕ) : ℝ) (q : ℝ) := by norm_num
  rw [h1, h2, Real.ceil_logb_natCast hq'.le]
  have hcast : ∀ z : ℤ, (((4 : ℕ) : ℝ)) ^ z = ((((4 : ℕ) : ℚ) ^ z : ℚ) : ℝ) := by
    intro z
    rw [Rat.cast_zpow]
    norm_num
  apply le_antisymm
  · refine (@Int.le_zpow_iff_clog_le ℝ _ _ 4 (by norm_num) (Int.clog 4 q) (q : ℝ) hq').mp ?_
    rw [hcast]
    exact Rat.cast_le.mpr (Int.self_le_zpow_clog (show (1 : ℕ) < 4 by norm_num) q)
  · refine (@Int.le_zpow_iff_clog_le ℚ _ _ 4 (by norm_num)
      (Int.clog 4 ((q : ℚ) : ℝ)) q hq).mp ?_
    refine (@Rat.cast_le q (((4 : ℕ) : ℚ) ^ Int.clog 4 ((q : ℚ) : ℝ)) ℝ _).mp ?_
    rw [← hcast]
    exact Int.self_le_zpow_clog (show (1 : ℕ) < 4 by norm_num) ((q : ℚ) : ℝ)

/-- **C5.**  `choose_order_size`: when `order` is unset the derived order is
`min(10, ceil(log2(sqrt(total_bytes / granularity))))` (and, the derived
value never exceeding 10, an unset `size` then defaults to 10); when `size`
is unset it is `order` if `order > 10` else `10`; when the resulting
`size < order` the auto-derived order is clamped down to `size`, while an
explicitly supplied order raises the configuration error. -/
theorem choose_order_size_spec (t g : ℚ) (ht : 0 < t) (hg : 0 < g) :
    (choose_order_size none none t g =
      .ok (min 10 ⌈Real.logb 2 (Real.sqrt ((t : ℝ) / (g : ℝ)))⌉, 10)) ∧
    (∀ o : ℤ, choose_order_size (some o) none t g = .ok (o, if o > 10 then o else 10)) ∧
    (∀ s : ℤ, choose_order_size none (some s) t g =
      if s < min 10 ⌈Real.logb 2 (Real.sqrt ((t : ℝ) / (g : ℝ)))⌉ then .ok (s, s)
      else .ok (min 10 ⌈Real.logb 2 (Real.sqrt ((t : ℝ) / (g : ℝ)))⌉, s)) ∧
    (∀ o s : ℤ, s < o → choose_order_size (some o) (some s) t g = .error .heatmapError) ∧
    (∀ o s : ℤ, o ≤ s → choose_order_size (some o) (some s) t g = .ok (o, s)) := by
  have hcast : ((t / g : ℚ) : ℝ) = (t : ℝ) / (g : ℝ) := by push_cast; ring
  have hauto : min 10 ⌈Real.logb 2 (Real.sqrt ((t : ℝ) / (g : ℝ)))⌉ =
      min 10 (Int.clog 4 (t / g)) := by
    rw [← hcast, ceil_log2_sqrt_eq_clog4 (t / g) (div_pos ht hg)]
  refine ⟨?_, ?_, ?_, ?_, ?_⟩
  · rw [hauto]
    have hle : min 10 (Int.clog 4 (t / g)) ≤ 10 := min_le_left _ _
    simp only [choose_order_size]
    rw [if_neg (by omega), if_neg (by omega)]
  · intro o
    simp only [choose_order_size]
    by_cases h : o > 10
    · rw [if_pos h, if_neg (by omega)]
    · rw [if_neg h, if_neg (by omega)]
  · intro s
    rw [hauto]
    simp only [choose_order_size, Option.isNone_none]
    by_cases h : s < min 10 (Int.clog 4 (t / g))
    · rw [if_pos h, if_pos h]
      simp
    · rw [if_neg h, if_neg h]
  · intro o s hso
    simp only [choose_order_size, Option.isNone_some]
    rw [if_pos hso]
    rfl
  · intro o s hos
    simp only [choose_order_size]
    rw [if_neg (by omega)]

/-- **C5, witness**: an explicit `size = 3` below an explicit `order = 12`
is a configuration error. -/
theorem choose_order_size_spec_witness :
    choose_order_size (some 12) (some 3) 16 1 = .error .heatmapError :=
  (choose_order_size_spec 16 1 (by norm_num) (by norm_num)).2.2.2.1 12 3 (by norm_num)

/-! ## The Grid fill engine — `class Grid`, lines 195-328 -/

/-- A color triple; the source uses integer RGB tuples, and the composite
arithmetic is (modelled as) exact. -/
structure QColor where
  r : ℚ
  g : ℚ
  b : ℚ
deriving DecidableEq, Repr

/-- `white = (0xff, 0xff, 0xff)`. -/
def white : QColor := ⟨255, 255, 255⟩

/-- The state of a `Grid` object.  The consumed generator `self.curve` is
the current cursor `(y, x, linear)` plus the unconsumed steps `remaining`;
the pixel buffer `self._grid` maps coordinates to packed RGB bytes,
modelled as the integer triple that `struct_color.pack` (which is
injective) would encode; the color cache is omitted as it only avoids
re-packing identical triples. -/
structure GridState where
  order : ℕ
  size : ℤ
  y : ℤ
  x : ℤ
  linear : ℕ
  remaining : List HPos
  pixelMix : List (QColor × ℚ × ℚ)
  pixelDirty : Bool
  totalBytes : ℚ
  bytesPerPixel : ℚ
  minBrightness : ℚ
  grid : ℤ → ℤ → ℤ × ℤ × ℤ
  finished : Bool

/-- `_pixel_mix_to_rgbytes`: per-channel coverage-weighted sums, the
usage-weighted brightness factor, and rounding. -/
def mixRGB (mix : List (QColor × ℚ × ℚ)) (minB : ℚ) : ℤ × ℤ × ℤ :=
  let Rc := (mix.map fun e => e.1.r * e.2.2).sum
  let Gc := (mix.map fun e => e.1.g * e.2.2).sum
  let Bc := (mix.map fun e => e.1.b * e.2.2).sum
  let weighted_usage := (mix.map fun e => e.2.1 * e.2.2).sum
  let weighted_usage_min_bright := minB + weighted_usage * (1 - minB)
  (pyRound (Rc * weighted_usage_min_bright),
   pyRound (Gc * weighted_usage_min_bright),
   pyRound (Bc * weighted_usage_min_bright))

/-- `_add_to_pixel_mix`. -/
def addToPixelMix (g : GridState) (color : QColor) (used_pct pixel_pct : ℚ) : GridState :=
  { g with pixelMix := g.pixelMix ++ [(color, used_pct, pixel_pct)], pixelDirty := true }

/-- `_set_pixel`. -/
def setPixel (g : GridState) (rgb : ℤ × ℤ × ℤ) : GridState :=
  { g with grid := fun y x => if y = g.y ∧ x = g.x then rgb else g.grid y x }

/-- `_finish_pixel`. -/
def finishPixel (g : GridState) : GridState :=
  { setPixel g (mixRGB g.pixelMix g.minBrightness) with pixelMix := [], pixelDirty := false }

/-- `_next_pixel`: finish the current pixel if dirty, then pull the next
curve step; `none` models `StopIteration`. -/
def nextPixel (g : GridState) : Option GridState :=
  let g1 := if g.pixelDirty then finishPixel g else g
  match g1.remaining with
  | [] => none
  | s :: rest => some { g1 with y := s.y, x := s.x, linear := s.lin, remaining := rest }

theorem nextPixel_eq (g : GridState) :
    nextPixel g = match g.remaining with
      | [] => none
      | s :: rest => some { (if g.pixelDirty then finishPixel g else g) with
          y := s.y, x := s.x, linear := s.lin, remaining := rest } := by
  unfold nextPixel
  rcases hrem : g.remaining with - | ⟨s, rest⟩ <;>
    cases hd : g.pixelDirty <;>
      simp [finishPixel, setPixel, hrem, hd]

theorem nextPixel_length {g g' : GridState} (h : nextPixel g = some g') :
    g'.remaining.length + 1 = g.remaining.length := by
  rw [nextPixel_eq] at h
  rcases hrem : g.remaining with - | ⟨s, rest⟩ <;> rw [hrem] at h
  · exact absurd h (by simp)
  · simp only [Option.some.injEq] at h
    rw [← h]
    simp

/-- `next(self.curve)` with the `StopIteration` surfaced as an error. -/
def nextPixelE (g : GridState) : Except GErr GridState :=
  match nextPixel g with
  | none => .error .stopIteration
  | some g' => .ok g'

/-- The loop `while self.linear < first_pixel: self._next_pixel()`,
with explicit fuel.  Run with fuel `g.remaining.length` (the number of
`next()` calls possible before the generator is exhausted) the recursion is
extensionally the source loop: each iteration consumes exactly one step,
and with fuel 0 a further iteration would raise `StopIteration`. -/
def advanceGo (target : ℤ) : ℕ → GridState → Except GErr GridState
  | 0, g => if (g.linear : ℤ) < target then .error .stopIteration else .ok g
  | fuel + 1, g =>
    if (g.linear : ℤ) < target then
      match nextPixel g with
      | none => .error .stopIteration
      | some g' => advanceGo target fuel g'
    else .ok g

def advanceTo (target : ℤ) (g : GridState) : Except GErr GridState :=
  advanceGo target g.remaining.length g

/-- The loop `while self.linear < last_pixel - 1: self._next_pixel();
self._set_pixel(rgbytes)`, with fuel as in `advanceGo`. -/
def fillMiddleGo (target : ℤ) (rgb : ℤ × ℤ × ℤ) : ℕ → GridState → Except GErr GridState
  | 0, g => if (g.linear : ℤ) < target then .error .stopIteration else .ok g
  | fuel + 1, g =>
    if (g.linear : ℤ) < target then
      match nextPixel g with
      | none => .error .stopIteration
      | some g' => fillMiddleGo target rgb fuel (setPixel g' rgb)
    else .ok g

def fillMiddle (target : ℤ) (rgb : ℤ × ℤ × ℤ) (g : GridState) : Except GErr GridState :=
  fillMiddleGo target rgb g.remaining.length g

/-- `Grid.fill(first_byte, length, used_pct, color)`, lines 274-314. -/
def Grid.fill (g0 : GridState) (first_byte length used_pct : ℚ) (color : QColor) :
    Except GErr GridState :=
  if g0.finished then .error .stateError else
  let first_pixel := pyInt (first_byte / g0.bytesPerPixel)
  let last_pixel := pyInt ((first_byte + length - 1) / g0.bytesPerPixel)
  (advanceTo first_pixel g0).bind fun g =>
  if first_pixel = last_pixel then
    .ok (addToPixelMix g color used_pct (length / g.bytesPerPixel))
  else
    let pct_of_first_pixel :=
      (g.bytesPerPixel - pymod first_byte g.bytesPerPixel) / g.bytesPerPixel
    let pl := pymod (first_byte + length) g.bytesPerPixel / g.bytesPerPixel
    let pct_of_last_pixel := if pl = 0 then 1 else pl
    let g1 := addToPixelMix g color used_pct pct_of_first_pixel
    ((if (g1.linear : ℤ) < last_pixel - 1 then
        (nextPixelE g1).bind fun g2 =>
          let g3 := addToPixelMix g2 color used_pct 1
          let rgb := mixRGB g3.pixelMix g3.minBrightness
          fillMiddle (last_pixel - 1) rgb (setPixel g3 rgb)
      else .ok g1)).bind fun g4 =>
    (nextPixelE g4).bind fun g5 =>
    .ok (addToPixelMix g5 color used_pct pct_of_last_pixel)

/-- The keys of the `curves` dictionary. -/
inductive CurveKind : Type
  | hilbert | linear | snake
deriving DecidableEq, Repr

def curveSteps : CurveKind → ℕ → List HPos
  | .hilbert => hilbert
  | .linear => linear
  | .snake => snake

theorem linear_ne_nil (o : ℕ) : linear o ≠ [] := by
  have h : (linear o).length = 4 ^ o := by rw [linear_eq_closed o]; simp
  intro hnil
  rw [hnil] at h
  simp at h
  have h4 : 0 < (4 : ℕ) ^ o := Nat.pos_pow_of_pos o (by norm_num)
  omega

theorem snake_ne_nil (o : ℕ) : snake o ≠ [] := by
  unfold snake
  have h1 : 1 ≤ 2 ^ o := Nat.one_le_two_pow
  have hm : (2 ^ o + 1) / 2 = ((2 ^ o + 1) / 2 - 1) + 1 := by omega
  rw [hm, List.range'_concat, List.flatMap_append]
  intro hnil
  rcases List.append_eq_nil.mp hnil with ⟨-, h2⟩
  simp only [List.flatMap_cons, List.flatMap_nil, List.append_nil] at h2
  rcases List.append_eq_nil.mp h2 with ⟨h3, -⟩
  rw [List.map_eq_nil_iff] at h3
  rw [List.range_eq_nil] at h3
  omega

theorem curveSteps_ne_nil (k : CurveKind) (o : ℕ) : curveSteps k o ≠ [] := by
  cases k with
  | hilbert => exact walk_ne_nil o Orient.URDR _
  | linear => exact linear_ne_nil o
  | snake => exact snake_ne_nil o

/-- `Grid.__init__`, lines 196-226.  `choose_order_size` runs first; the
curve generator is built and its first step pulled; the grid is allocated
all black; the `min_brightness` range check happens last (defaulting to
`0.1 = 1/10`).  A negative auto-derived order (possible when
`total_bytes < default_granularity`) is outside the modelled domain — the
source would compute fractional `2 ** order` grid dimensions there — and is
reported as `.error .unsupported`. -/
def Grid.init (order size : Option ℤ) (total_bytes default_granularity : ℚ)
    (min_brightness : Option ℚ) (curve : Option CurveKind) : Except GErr GridState :=
  (choose_order_size order size total_bytes default_granularity).bind fun os =>
  if os.1 < 0 then .error .unsupported else
  match curveSteps (curve.getD .hilbert) os.1.toNat with
  | [] => .error .stopIteration
  | st :: rest =>
    ((match min_brightness with
      | none => .ok (1/10 : ℚ)
      | some mb => if mb < 0 ∨ mb > 1 then .error .valueError else .ok mb) :
        Except GErr ℚ).bind fun minB =>
    .ok {
      order := os.1.toNat, size := os.2,
      y := st.y, x := st.x, linear := st.lin, remaining := rest,
      pixelMix := [], pixelDirty := false,
      totalBytes := total_bytes,
      bytesPerPixel := total_bytes / (((2 ^ os.1.toNat) ^ 2 : ℕ) : ℚ),
      minBrightness := minB,
      grid := fun _ _ => (0, 0, 0),
      finished := false }

/-- The finalization half of `write_png` (lines 318-321): flush a pending
pixel, freeze the grid.  The image encoding itself is modelled separately
by `_write_png`. -/
def Grid.finishResult (g : GridState) : GridState :=
  if g.finished = false then
    let g1 := if g.pixelDirty then finishPixel g else g
    { g1 with finished := true }
  else g


/-- **C3.**  On the grid with `totalBytes = 20` at order 1
(`bytesPerPixel = 5`), `fill(0, 10, 1.0, white)` with the default
`minBrightness = 0.1` followed by finalization paints exactly the first two
pixels along the hilbert curve — cells `(1,0)` and `(0,0)` — with RGB
`(255, 255, 255)` (usage 1 gives brightness factor
`0.1 + 1 * (1 - 0.1) = 1`), while the later cells `(0,1)` and `(1,1)`
remain black `(0, 0, 0)`. -/
theorem fill_concrete_scenario :
    ((Grid.init (some 1) none 20 33554432 none none).bind fun g =>
        Grid.fill g 0 10 1 white).toOption.map
        (fun g =>
          ((Grid.finishResult g).grid 1 0, (Grid.finishResult g).grid 0 0,
           (Grid.finishResult g).grid 0 1, (Grid.finishResult g).grid 1 1)) =
      some ((255, 255, 255), (255, 255, 255), (0, 0, 0), (0, 0, 0)) := by
  decide

/-- **C8.**  `Grid` construction validates `min_brightness`: an explicit
value outside `[0, 1]` raises the range error during `__init__`, before any
`fill` can run (no `GridState` value is produced, so no pixel is ever
written through it); an unset value defaults to `0.1 = 1/10`; an explicit
value inside `[0, 1]` is accepted unchanged.  Hypotheses: the other
construction inputs are valid (`choose_order_size` succeeds with a
non-negative order). -/
theorem min_brightness_validation (order size : Option ℤ) (t gran : ℚ)
    (curve : Option CurveKind) (o s : ℤ)
    (hco : choose_order_size order size t gran = .ok (o, s)) (ho : 0 ≤ o) :
    (∀ mb : ℚ, mb < 0 ∨ 1 < mb →
      Grid.init order size t gran (some mb) curve = .error .valueError) ∧
    (∃ g, Grid.init order size t gran none curve = .ok g ∧ g.minBrightness = 1/10) ∧
    (∀ mb : ℚ, 0 ≤ mb → mb ≤ 1 →
      ∃ g, Grid.init order size t gran (some mb) curve = .ok g ∧ g.minBrightness = mb) := by
  have hneg : ¬ o < 0 := by omega
  rcases hsteps : curveSteps (curve.getD .hilbert) o.toNat with - | ⟨st, rest⟩
  · exact absurd hsteps (curveSteps_ne_nil _ _)
  · refine ⟨?_, ?_, ?_⟩
    · intro mb hmb
      have hmb' : mb < 0 ∨ mb > 1 := hmb
      simp only [Grid.init, hco, Except.bind, if_neg hneg, hsteps, if_pos hmb']
    · simp only [Grid.init, hco, Except.bind, if_neg hneg, hsteps]
      exact ⟨_, rfl, rfl⟩
    · intro mb h0 h1
      have hcond : ¬ (mb < 0 ∨ mb > 1) := by push_neg; exact ⟨h0, h1⟩
      simp only [Grid.init, hco, Except.bind, if_neg hneg, hsteps, if_neg hcond]
      exact ⟨_, rfl, rfl⟩

theorem min_brightness_validation_witness :
    Grid.init (some 1) none 20 33554432 (some (3/2)) none = .error .valueError :=
  (min_brightness_validation (some 1) none 20 33554432 none 1 10
    (by rfl) (by decide)).1 (3/2) (by norm_num)

/-! ## Symbolic behaviour of multi-pixel `fill` calls -/

/-- The linear indices of a step list continue counting up from `n`
(every real curve generator satisfies this, cf. `walk_lin`,
`map_lin_rasterAt`, `map_lin_snakeAt`). -/
def consecB : ℕ → List HPos → Bool
  | _, [] => true
  | n, s :: rest => s.lin == n + 1 && consecB (n + 1) rest

theorem consecB_cons {n : ℕ} {s : HPos} {rest : List HPos} :
    consecB n (s :: rest) = true ↔ s.lin = n + 1 ∧ consecB (n + 1) rest = true := by
  simp [consecB]

theorem consecB_get : ∀ (l : List HPos) (n k : ℕ) (a : HPos),
    consecB n l = true → l[k]? = some a → a.lin = n + 1 + k := by
  intro l
  induction l with
  | nil => intro n k a _ h; simp at h
  | cons s rest ih =>
    intro n k a hc hk
    obtain ⟨hs, hrest⟩ := consecB_cons.mp hc
    match k with
    | 0 =>
      simp only [List.getElem?_cons_zero, Option.some.injEq] at hk
      rw [← hk, hs]
    | k + 1 =>
      simp only [List.getElem?_cons_succ] at hk
      have := ih (n + 1) k a hrest hk
      omega

/-- Writing the current mix into the current pixel is value-preserving when
the buffer already holds that value. -/
theorem setPixel_grid_eq {g : GridState} {rgb : ℤ × ℤ × ℤ}
    (h : g.grid g.y g.x = rgb) : (setPixel g rgb).grid = g.grid := by
  funext y x
  simp only [setPixel]
  by_cases hc : y = g.y ∧ x = g.x
  · rw [if_pos hc, ← h, hc.1, hc.2]
  · rw [if_neg hc]

theorem finishPixel_grid_eq {g : GridState}
    (h : g.grid g.y g.x = mixRGB g.pixelMix g.minBrightness) :
    (finishPixel g).grid = g.grid := by
  simp only [finishPixel]
  exact setPixel_grid_eq h

/-- The loop invariant of `while self.linear < last_pixel - 1:
self._next_pixel(); self._set_pixel(rgbytes)`: it advances the cursor to
`target`, paints every consumed step with `rgb`, touches no other cell
(any `_finish_pixel` on the way re-writes `rgb` over `rgb`), and leaves
either the entry mix state (no iteration) or an empty, clean mix. -/
theorem fillMiddleGo_spec (target : ℤ) (rgb : ℤ × ℤ × ℤ) :
    ∀ (l : List HPos) (g : GridState),
      g.remaining = l →
      consecB g.linear l = true →
      (g.linear : ℤ) ≤ target →
      target ≤ (g.linear : ℤ) + l.length →
      (g.pixelDirty = true → mixRGB g.pixelMix g.minBrightness = rgb) →
      g.grid g.y g.x = rgb →
      ∃ g', fillMiddleGo target rgb l.length g = .ok g' ∧
        (g'.linear : ℤ) = target ∧
        g'.remaining = l.drop (target - g.linear).toNat ∧
        (g'.pixelMix = g.pixelMix ∧ g'.pixelDirty = g.pixelDirty ∨
          g'.pixelMix = [] ∧ g'.pixelDirty = false) ∧
        (g'.pixelDirty = true → mixRGB g'.pixelMix g'.minBrightness = rgb) ∧
        g'.grid g'.y g'.x = rgb ∧
        (∀ y x, g'.grid y x =
          if ∃ s ∈ l.take (target - g.linear).toNat, s.y = y ∧ s.x = x
          then rgb else g.grid y x) ∧
        g'.minBrightness = g.minBrightness ∧
        g'.finished = g.finished ∧
        g'.bytesPerPixel = g.bytesPerPixel := by
  intro l
  induction l with
  | nil =>
    intro g hrem hcons hle hge hdirty hgrid
    simp only [List.length_nil, Nat.cast_zero, add_zero] at hge
    have hstop : ¬ (g.linear : ℤ) < target := by omega
    refine ⟨g, ?_, by omega, ?_, Or.inl ⟨rfl, rfl⟩, hdirty, hgrid, ?_, rfl, rfl, rfl⟩
    · simp [fillMiddleGo, hstop]
    · rw [hrem]; simp
    · intro y x; simp
  | cons s rest ih =>
    intro g hrem hcons hle hge hdirty hgrid
    obtain ⟨hs, hrest⟩ := consecB_cons.mp hcons
    by_cases h : (g.linear : ℤ) < target
    · -- one loop iteration: `_next_pixel()` then `_set_pixel(rgbytes)`
      have hnp : nextPixel g = some { (if g.pixelDirty then finishPixel g else g) with
          y := s.y, x := s.x, linear := s.lin, remaining := rest } := by
        rw [nextPixel_eq, hrem]
      have hmf_grid : (if g.pixelDirty then finishPixel g else g).grid = g.grid := by
        cases hd : g.pixelDirty
        · rw [if_neg (by simp)]
        · rw [if_pos rfl]
          exact finishPixel_grid_eq (by rw [hdirty hd]; exact hgrid)
      have hmf_dirty : (if g.pixelDirty then finishPixel g else g).pixelDirty = false := by
        cases hd : g.pixelDirty
        · rw [if_neg (by simp [hd])]; exact hd
        · rw [if_pos rfl]; simp [finishPixel, setPixel]
      have hmf_mix : (if g.pixelDirty then finishPixel g else g).pixelMix = [] ∨
          (if g.pixelDirty then finishPixel g else g).pixelMix = g.pixelMix ∧
            g.pixelDirty = false := by
        cases hd : g.pixelDirty
        · exact Or.inr ⟨by rw [if_neg (by simp [hd])], rfl⟩
        · exact Or.inl (by rw [if_pos rfl]; simp [finishPixel, setPixel])
      have hmf_minB : (if g.pixelDirty then finishPixel g else g).minBrightness =
          g.minBrightness := by
        cases g.pixelDirty <;> simp [finishPixel, setPixel]
      have hmf_fin : (if g.pixelDirty then finishPixel g else g).finished = g.finished := by
        cases g.pixelDirty <;> simp [finishPixel, setPixel]
      have hmf_bpp : (if g.pixelDirty then finishPixel g else g).bytesPerPixel =
          g.bytesPerPixel := by
        cases g.pixelDirty <;> simp [finishPixel, setPixel]
      -- the state after `_next_pixel(); _set_pixel(rgbytes)`
      set gB := setPixel { (if g.pixelDirty then finishPixel g else g) with
          y := s.y, x := s.x, linear := s.lin, remaining := rest } rgb with hgB
      have hB_rem : gB.remaining = rest := rfl
      have hB_lin : gB.linear = g.linear + 1 := by
        show s.lin = g.linear + 1
        exact hs
      have hB_dirty : gB.pixelDirty = false := hmf_dirty
      have hB_mix : gB.pixelMix = (if g.pixelDirty then finishPixel g else g).pixelMix := rfl
      have hB_minB : gB.minBrightness = g.minBrightness := hmf_minB
      have hB_fin : gB.finished = g.finished := hmf_fin
      have hB_bpp : gB.bytesPerPixel = g.bytesPerPixel := hmf_bpp
      have hB_grid : ∀ y x, gB.grid y x = if y = s.y ∧ x = s.x then rgb else g.grid y x := by
        intro y x
        show (if y = s.y ∧ x = s.x then rgb
          else ({ (if g.pixelDirty then finishPixel g else g) with
            y := s.y, x := s.x, linear := s.lin, remaining := rest } : GridState).grid y x) = _
        rw [show ({ (if g.pixelDirty then finishPixel g else g) with
            y := s.y, x := s.x, linear := s.lin, remaining := rest } : GridState).grid =
          (if g.pixelDirty then finishPixel g else g).grid from rfl, hmf_grid]
      have hB_cursor : gB.grid gB.y gB.x = rgb := by
        rw [hB_grid]
        simp [show gB.y = s.y from rfl, show gB.x = s.x from rfl]
      have hB_dirty_mix : gB.pixelDirty = true →
          mixRGB gB.pixelMix gB.minBrightness = rgb := by
        intro hbd
        rw [hB_dirty] at hbd
        exact absurd hbd (by simp)
      obtain ⟨g', hrun, hlin', hrem', halt', hdirty', hcur', hgrid', hminB', hfin', hbpp'⟩ :=
        ih gB hB_rem
          (by rw [hB_lin]; exact hrest)
          (by rw [hB_lin]; push_cast; omega)
          (by rw [hB_lin]
              simp only [List.length_cons] at hge
              push_cast at hge ⊢
              omega)
          hB_dirty_mix hB_cursor
      obtain ⟨k1, hk1⟩ : ∃ k1, (target - (g.linear : ℤ)).toNat = k1 + 1 :=
        ⟨(target - (g.linear : ℤ)).toNat - 1, by omega⟩
      have harith : (target - ((g.linear + 1 : ℕ) : ℤ)).toNat = k1 := by push_cast; omega
      refine ⟨g', ?_, hlin', ?_, ?_, hdirty', hcur', ?_, by rw [hminB', hB_minB],
        by rw [hfin', hB_fin], by rw [hbpp', hB_bpp]⟩
      · show fillMiddleGo target rgb (rest.length + 1) g = .ok g'
        rw [show fillMiddleGo target rgb (rest.length + 1) g =
          (if (g.linear : ℤ) < target then
            match nextPixel g with
            | none => .error .stopIteration
            | some g2 => fillMiddleGo target rgb rest.length (setPixel g2 rgb)
          else .ok g) from rfl]
        rw [if_pos h, hnp]
        exact hrun
      · rw [hrem', hB_lin, harith, hk1, List.drop_succ_cons]
      · rcases halt' with ⟨hm, hd⟩ | hr
        · rw [hB_mix] at hm
          rw [hB_dirty] at hd
          rcases hmf_mix with hmm | ⟨hmm, hnd⟩
          · exact Or.inr ⟨by rw [hm, hmm], hd⟩
          · exact Or.inl ⟨by rw [hm, hmm], by rw [hd, hnd]⟩
        · exact Or.inr hr
      · intro y x
        rw [hgrid' y x, hB_grid y x, hB_lin, harith, hk1, List.take_succ_cons]
        by_cases h1 : ∃ s1 ∈ rest.take k1, s1.y = y ∧ s1.x = x
        · rw [if_pos h1, if_pos ?_]
          obtain ⟨s1, hs1, hs2⟩ := h1
          exact ⟨s1, List.mem_cons_of_mem _ hs1, hs2⟩
        · rw [if_neg h1]
          by_cases h2 : y = s.y ∧ x = s.x
          · rw [if_pos h2, if_pos ⟨s, List.mem_cons_self _ _, h2.1.symm, h2.2.symm⟩]
          · rw [if_neg h2, if_neg ?_]
            rintro ⟨s1, hs1, hs2, hs3⟩
            rcases List.mem_cons.mp hs1 with rfl | hs1
            · exact h2 ⟨hs2.symm, hs3.symm⟩
            · exact h1 ⟨s1, hs1, hs2, hs3⟩
    · -- target already reached: the loop body never runs
      have heq : (g.linear : ℤ) = target := by omega
      refine ⟨g, ?_, heq, ?_, Or.inl ⟨rfl, rfl⟩, hdirty, hgrid, ?_, rfl, rfl, rfl⟩
      · show fillMiddleGo target rgb (rest.length + 1) g = .ok g
        rw [show fillMiddleGo target rgb (rest.length + 1) g =
          (if (g.linear : ℤ) < target then
            match nextPixel g with
            | none => .error .stopIteration
            | some g2 => fillMiddleGo target rgb rest.length (setPixel g2 rgb)
          else .ok g) from rfl]
        rw [if_neg h]
      · rw [show (target - (g.linear : ℤ)).toNat = 0 by omega]
        simp [hrem]
      · intro y x
        rw [show (target - (g.linear : ℤ)).toNat = 0 by omega]
        simp

@[simp] theorem addToPixelMix_linear (g : GridState) (c : QColor) (up pp : ℚ) :
    (addToPixelMix g c up pp).linear = g.linear := rfl

@[simp] theorem addToPixelMix_y (g : GridState) (c : QColor) (up pp : ℚ) :
    (addToPixelMix g c up pp).y = g.y := rfl

@[simp] theorem addToPixelMix_x (g : GridState) (c : QColor) (up pp : ℚ) :
    (addToPixelMix g c up pp).x = g.x := rfl

@[simp] theorem addToPixelMix_remaining (g : GridState) (c : QColor) (up pp : ℚ) :
    (addToPixelMix g c up pp).remaining = g.remaining := rfl

@[simp] theorem addToPixelMix_minBrightness (g : GridState) (c : QColor) (up pp : ℚ) :
    (addToPixelMix g c up pp).minBrightness = g.minBrightness := rfl

@[simp] theorem addToPixelMix_finished (g : GridState) (c : QColor) (up pp : ℚ) :
    (addToPixelMix g c up pp).finished = g.finished := rfl

@[simp] theorem addToPixelMix_bytesPerPixel (g : GridState) (c : QColor) (up pp : ℚ) :
    (addToPixelMix g c up pp).bytesPerPixel = g.bytesPerPixel := rfl

@[simp] theorem addToPixelMix_grid (g : GridState) (c : QColor) (up pp : ℚ) :
    (addToPixelMix g c up pp).grid = g.grid := rfl

@[simp] theorem addToPixelMix_pixelMix (g : GridState) (c : QColor) (up pp : ℚ) :
    (addToPixelMix g c up pp).pixelMix = g.pixelMix ++ [(c, up, pp)] := rfl

@[simp] theorem addToPixelMix_pixelDirty (g : GridState) (c : QColor) (up pp : ℚ) :
    (addToPixelMix g c up pp).pixelDirty = true := rfl

@[simp] theorem setPixel_linear (g : GridState) (rgb : ℤ × ℤ × ℤ) :
    (setPixel g rgb).linear = g.linear := rfl

@[simp] theorem setPixel_y (g : GridState) (rgb : ℤ × ℤ × ℤ) :
    (setPixel g rgb).y = g.y := rfl

@[simp] theorem setPixel_x (g : GridState) (rgb : ℤ × ℤ × ℤ) :
    (setPixel g rgb).x = g.x := rfl

@[simp] theorem setPixel_remaining (g : GridState) (rgb : ℤ × ℤ × ℤ) :
    (setPixel g rgb).remaining = g.remaining := rfl

@[simp] theorem setPixel_minBrightness (g : GridState) (rgb : ℤ × ℤ × ℤ) :
    (setPixel g rgb).minBrightness = g.minBrightness := rfl

@[simp] theorem setPixel_finished (g : GridState) (rgb : ℤ × ℤ × ℤ) :
    (setPixel g rgb).finished = g.finished := rfl

@[simp] theorem setPixel_bytesPerPixel (g : GridState) (rgb : ℤ × ℤ × ℤ) :
    (setPixel g rgb).bytesPerPixel = g.bytesPerPixel := rfl

@[simp] theorem setPixel_pixelMix (g : GridState) (rgb : ℤ × ℤ × ℤ) :
    (setPixel g rgb).pixelMix = g.pixelMix := rfl

@[simp] theorem setPixel_pixelDirty (g : GridState) (rgb : ℤ × ℤ × ℤ) :
    (setPixel g rgb).pixelDirty = g.pixelDirty := rfl

@[simp] theorem finishPixel_linear (g : GridState) : (finishPixel g).linear = g.linear := rfl

@[simp] theorem finishPixel_y (g : GridState) : (finishPixel g).y = g.y := rfl

@[simp] theorem finishPixel_x (g : GridState) : (finishPixel g).x = g.x := rfl

@[simp] theorem finishPixel_remaining (g : GridState) :
    (finishPixel g).remaining = g.remaining := rfl

@[simp] theorem finishPixel_minBrightness (g : GridState) :
    (finishPixel g).minBrightness = g.minBrightness := rfl

@[simp] theorem finishPixel_finished (g : GridState) :
    (finishPixel g).finished = g.finished := rfl

@[simp] theorem finishPixel_bytesPerPixel (g : GridState) :
    (finishPixel g).bytesPerPixel = g.bytesPerPixel := rfl

@[simp] theorem finishPixel_pixelMix (g : GridState) : (finishPixel g).pixelMix = [] := rfl

@[simp] theorem finishPixel_pixelDirty (g : GridState) :
    (finishPixel g).pixelDirty = false := rfl

theorem finishPixel_grid (g : GridState) :
    (finishPixel g).grid = fun y x =>
      if y = g.y ∧ x = g.x then mixRGB g.pixelMix g.minBrightness else g.grid y x := rfl

theorem advanceTo_done {t : ℤ} {g : GridState} (h : ¬ (g.linear : ℤ) < t) :
    advanceTo t g = .ok g := by
  unfold advanceTo
  cases g.remaining.length <;> simp [advanceGo, h]

theorem nextPixelE_ok {g g' : GridState} (h : nextPixel g = some g') :
    nextPixelE g = .ok g' := by
  simp [nextPixelE, h]

/-- Behaviour of a multi-pixel `fill` (`firstPixel < lastPixel`) starting
with the cursor on `firstPixel`: the mix entry for the first fractional part
is appended and the first pixel finalized; every strictly intermediate step
is painted with the full-coverage color; the cursor ends on `lastPixel`,
left pending with the single mix entry for the final fractional part, the
pixel buffer untouched there. -/
theorem fill_multi_spec (g : GridState) (fb len u : ℚ) (c : QColor) (L : ℤ) (pL : ℚ)
    (hfin : g.finished = false)
    (hF : pyInt (fb / g.bytesPerPixel) = (g.linear : ℤ))
    (hL : pyInt ((fb + len - 1) / g.bytesPerPixel) = L)
    (hpL : pL = (if pymod (fb + len) g.bytesPerPixel / g.bytesPerPixel = 0 then 1
                 else pymod (fb + len) g.bytesPerPixel / g.bytesPerPixel))
    (hlt : (g.linear : ℤ) < L)
    (hcons : consecB g.linear g.remaining = true)
    (hlen : L ≤ (g.linear : ℤ) + g.remaining.length) :
    ∃ g' sL rest',
      g.remaining.drop (L - g.linear - 1).toNat = sL :: rest' ∧
      Grid.fill g fb len u c = .ok g' ∧
      (sL.lin : ℤ) = L ∧
      g'.linear = sL.lin ∧ g'.y = sL.y ∧ g'.x = sL.x ∧ g'.remaining = rest' ∧
      g'.pixelMix = [(c, u, pL)] ∧
      g'.pixelDirty = true ∧
      g'.minBrightness = g.minBrightness ∧
      g'.finished = false ∧
      (∀ y x, g'.grid y x =
        if ∃ s ∈ g.remaining.take (L - g.linear - 1).toNat, s.y = y ∧ s.x = x
        then mixRGB [(c, u, 1)] g.minBrightness
        else if y = g.y ∧ x = g.x
        then mixRGB (g.pixelMix ++
          [(c, u, (g.bytesPerPixel - pymod fb g.bytesPerPixel) / g.bytesPerPixel)])
          g.minBrightness
        else g.grid y x) := by
  have hadv : advanceTo (g.linear : ℤ) g = .ok g := advanceTo_done (lt_irrefl _)
  have hne : ¬ ((g.linear : ℤ) = L) := by omega
  -- shape of the unconsumed steps
  rcases hrem : g.remaining with - | ⟨s0, rest⟩
  · rw [hrem] at hlen
    simp at hlen
    omega
  rw [hrem] at hcons
  obtain ⟨hs0, hrest⟩ := consecB_cons.mp hcons
  -- the common prefix: validity check, cursor already at `first_pixel`,
  -- the `first_pixel == last_pixel` test fails, the first mix entry is added
  have hfill0 : Grid.fill g fb len u c =
      (((if ((addToPixelMix g c u
            ((g.bytesPerPixel - pymod fb g.bytesPerPixel) / g.bytesPerPixel)).linear : ℤ)
            < L - 1 then
          (nextPixelE (addToPixelMix g c u
            ((g.bytesPerPixel - pymod fb g.bytesPerPixel) / g.bytesPerPixel))).bind fun g2 =>
            fillMiddle (L - 1)
              (mixRGB (addToPixelMix g2 c u 1).pixelMix (addToPixelMix g2 c u 1).minBrightness)
              (setPixel (addToPixelMix g2 c u 1)
                (mixRGB (addToPixelMix g2 c u 1).pixelMix
                  (addToPixelMix g2 c u 1).minBrightness))
        else .ok (addToPixelMix g c u
          ((g.bytesPerPixel - pymod fb g.bytesPerPixel) / g.bytesPerPixel)))).bind fun g4 =>
      (nextPixelE g4).bind fun g5 =>
      .ok (addToPixelMix g5 c u pL)) := by
    unfold Grid.fill
    rw [hfin]
    simp only [Bool.false_eq_true, if_false, hF, hL, hadv, Except.bind, if_neg hne, hpL]
  simp only [addToPixelMix_linear] at hfill0
  set pf := (g.bytesPerPixel - pymod fb g.bytesPerPixel) / g.bytesPerPixel with hpf
  set g1 := addToPixelMix g c u pf with hg1
  have hg1rem : g1.remaining = s0 :: rest := by rw [hg1, addToPixelMix_remaining, hrem]
  have hnp1 : nextPixel g1 = some { finishPixel g1 with
      y := s0.y, x := s0.x, linear := s0.lin, remaining := rest } := by
    rw [nextPixel_eq, hg1rem,
      show g1.pixelDirty = true from by rw [hg1, addToPixelMix_pixelDirty], if_pos rfl]
  set G2 : GridState := { finishPixel g1 with
      y := s0.y, x := s0.x, linear := s0.lin, remaining := rest } with hG2
  by_cases hm : (g.linear : ℤ) < L - 1
  · -- at least one strictly intermediate pixel
    rw [if_pos hm] at hfill0
    rw [nextPixelE_ok hnp1] at hfill0
    simp only [Except.bind] at hfill0
    set G3 := addToPixelMix G2 c u 1 with hG3
    have hrgbM : mixRGB G3.pixelMix G3.minBrightness =
        mixRGB [(c, u, 1)] g.minBrightness := by
      rw [hG3, addToPixelMix_pixelMix, addToPixelMix_minBrightness, hG2]
      simp [hg1]
    rw [hrgbM] at hfill0
    set rgbM := mixRGB [(c, u, 1)] g.minBrightness with hrgb
    set G4 := setPixel G3 rgbM with hG4
    have hG4rem : G4.remaining = rest := by
      rw [hG4, setPixel_remaining, hG3, addToPixelMix_remaining, hG2]
    have hG4lin : G4.linear = s0.lin := by
      rw [hG4, setPixel_linear, hG3, addToPixelMix_linear, hG2]
    have hG4minB : G4.minBrightness = g.minBrightness := by
      rw [hG4, setPixel_minBrightness, hG3, addToPixelMix_minBrightness, hG2]
      simp [hg1]
    have hG4fin : G4.finished = g.finished := by
      rw [hG4, setPixel_finished, hG3, addToPixelMix_finished, hG2]
      simp [hg1]
    have hG4mix : G4.pixelMix = [(c, u, 1)] := by
      rw [hG4, setPixel_pixelMix, hG3, addToPixelMix_pixelMix, hG2]
      simp
    have hG4dirty : G4.pixelDirty = true := by
      rw [hG4, setPixel_pixelDirty, hG3, addToPixelMix_pixelDirty]
    have hG4grid : ∀ y x, G4.grid y x =
        if y = s0.y ∧ x = s0.x then rgbM
        else if y = g.y ∧ x = g.x
        then mixRGB (g.pixelMix ++ [(c, u, pf)]) g.minBrightness
        else g.grid y x := by
      intro y x
      rw [hG4]
      show (if y = G3.y ∧ x = G3.x then rgbM else G3.grid y x) = _
      have h3y : G3.y = s0.y := by rw [hG3, addToPixelMix_y, hG2]
      have h3x : G3.x = s0.x := by rw [hG3, addToPixelMix_x, hG2]
      have h3g : G3.grid y x =
          if y = g.y ∧ x = g.x
          then mixRGB (g.pixelMix ++ [(c, u, pf)]) g.minBrightness
          else g.grid y x := by
        rw [hG3, addToPixelMix_grid, hG2]
        show (finishPixel g1).grid y x = _
        rw [finishPixel_grid]
        rw [hg1]
        simp only [addToPixelMix_y, addToPixelMix_x, addToPixelMix_pixelMix,
          addToPixelMix_minBrightness, addToPixelMix_grid]
      rw [h3y, h3x, h3g]
    have hrw : rest.length = G4.remaining.length := by rw [hG4rem]
    obtain ⟨g5, hrun5, hlin5, hrem5, halt5, hdirty5, hcur5, hgrid5, hminB5, hfin5, hbpp5⟩ :=
      fillMiddleGo_spec (L - 1) rgbM rest G4 hG4rem
        (by rw [hG4lin, hs0]; exact hrest)
        (by rw [hG4lin, hs0]; push_cast; omega)
        (by rw [hG4lin, hs0]
            rw [hrem] at hlen
            simp only [List.length_cons] at hlen
            push_cast at hlen ⊢
            omega)
        (by intro hd4
            rw [hG4mix, hG4minB])
        (by rw [hG4grid]
            simp [hG4, hG3, hG2])
    have hfm : fillMiddle (L - 1) rgbM G4 = fillMiddleGo (L - 1) rgbM rest.length G4 := by
      unfold fillMiddle
      rw [hG4rem]
    rw [hfm, hrun5] at hfill0
    simp only [Except.bind] at hfill0
    -- the final `_next_pixel()` pulls the last pixel
    have hK2 : ((L - 1) - (G4.linear : ℤ)).toNat = (L - (g.linear : ℤ) - 2).toNat := by
      rw [hG4lin, hs0]
      push_cast
      omega
    rcases hdrop : g5.remaining with - | ⟨sL, rest'⟩
    · exfalso
      rw [hdrop] at hrem5
      have hdl := congrArg List.length hrem5
      rw [List.length_drop, hK2] at hdl
      simp only [List.length_nil] at hdl
      rw [hrem] at hlen
      simp only [List.length_cons] at hlen
      push_cast at hlen
      omega
    have hnp5 : nextPixel g5 = some { (if g5.pixelDirty then finishPixel g5 else g5) with
        y := sL.y, x := sL.x, linear := sL.lin, remaining := rest' } := by
      rw [nextPixel_eq, hdrop]
    set G6 : GridState := { (if g5.pixelDirty then finishPixel g5 else g5) with
        y := sL.y, x := sL.x, linear := sL.lin, remaining := rest' } with hG6
    rw [nextPixelE_ok hnp5] at hfill0
    simp only [Except.bind] at hfill0
    -- linear index of the last step
    have hgetsL : rest[(L - (g.linear : ℤ) - 2).toNat]? = some sL := by
      have h1 : (rest.drop ((L - 1) - (G4.linear : ℤ)).toNat)[0]? = some sL := by
        rw [← hrem5, hdrop]
        simp
      rw [List.getElem?_drop, Nat.add_zero, hK2] at h1
      exact h1
    have hsLlin : (sL.lin : ℤ) = L := by
      have := consecB_get rest (g.linear + 1) _ sL hrest hgetsL
      push_cast [this]
      omega
    have h6mix : G6.pixelMix = [] := by
      rw [hG6]
      show (if g5.pixelDirty then finishPixel g5 else g5).pixelMix = []
      cases hd5 : g5.pixelDirty
      · rw [if_neg (by simp [hd5])]
        rcases halt5 with ⟨hm5, hd5'⟩ | ⟨hm5, -⟩
        · rw [hd5, hG4dirty] at hd5'
          exact absurd hd5'.symm (by simp)
        · exact hm5
      · rw [if_pos rfl, finishPixel_pixelMix]
    have h6grid : G6.grid = g5.grid := by
      rw [hG6]
      show (if g5.pixelDirty then finishPixel g5 else g5).grid = g5.grid
      cases hd5 : g5.pixelDirty
      · rw [if_neg (by simp [hd5])]
      · rw [if_pos rfl]
        exact finishPixel_grid_eq (by rw [hdirty5 hd5]; exact hcur5)
    have h6minB : G6.minBrightness = g.minBrightness := by
      rw [hG6]
      show (if g5.pixelDirty then finishPixel g5 else g5).minBrightness = _
      have : g5.minBrightness = g.minBrightness := by rw [hminB5, hG4minB]
      cases g5.pixelDirty
      · rw [if_neg (by simp)]; exact this
      · rw [if_pos rfl, finishPixel_minBrightness]; exact this
    have h6fin : G6.finished = false := by
      rw [hG6]
      show (if g5.pixelDirty then finishPixel g5 else g5).finished = _
      have : g5.finished = false := by rw [hfin5, hG4fin, hfin]
      cases g5.pixelDirty
      · rw [if_neg (by simp)]; exact this
      · rw [if_pos rfl, finishPixel_finished]; exact this
    refine ⟨addToPixelMix G6 c u pL, sL, rest', ?_, hfill0, hsLlin, rfl, rfl, rfl, rfl,
      ?_, rfl, ?_, ?_, ?_⟩
    · -- the shape of the remaining steps
      have hMsucc : (L - (g.linear : ℤ) - 1).toNat = (L - (g.linear : ℤ) - 2).toNat + 1 := by
        omega
      rw [hMsucc, List.drop_succ_cons, ← hK2, ← hrem5, hdrop]
    · rw [addToPixelMix_pixelMix, h6mix, List.nil_append]
    · rw [addToPixelMix_minBrightness, h6minB]
    · rw [addToPixelMix_finished, h6fin]
    · intro y x
      rw [addToPixelMix_grid, h6grid, hgrid5 y x, hG4grid y x, hK2]
      have hMsucc : (L - (g.linear : ℤ) - 1).toNat = (L - (g.linear : ℤ) - 2).toNat + 1 := by
        omega
      rw [hMsucc, List.take_succ_cons]
      by_cases h1 : ∃ s1 ∈ rest.take (L - (g.linear : ℤ) - 2).toNat, s1.y = y ∧ s1.x = x
      · rw [if_pos h1, if_pos ?_]
        obtain ⟨s1, hs1, hs2⟩ := h1
        exact ⟨s1, List.mem_cons_of_mem _ hs1, hs2⟩
      · rw [if_neg h1]
        by_cases h2 : y = s0.y ∧ x = s0.x
        · rw [if_pos h2, if_pos ⟨s0, List.mem_cons_self _ _, h2.1.symm, h2.2.symm⟩]
        · have hnex : ¬ ∃ s1 ∈ s0 :: List.take (L - (g.linear : ℤ) - 2).toNat rest,
              s1.y = y ∧ s1.x = x := by
            rintro ⟨s1, hs1, hs2, hs3⟩
            rcases List.mem_cons.mp hs1 with rfl | hs1m
            · exact h2 ⟨hs2.symm, hs3.symm⟩
            · exact h1 ⟨s1, hs1m, hs2, hs3⟩
          rw [if_neg h2, if_neg hnex]
  · -- no strictly intermediate pixel: `last_pixel = first_pixel + 1`
    rw [if_neg hm] at hfill0
    simp only [Except.bind] at hfill0
    rw [nextPixelE_ok hnp1] at hfill0
    simp only [Except.bind] at hfill0
    have hL1 : L = (g.linear : ℤ) + 1 := by omega
    have hsLlin : (s0.lin : ℤ) = L := by rw [hs0]; push_cast; omega
    refine ⟨addToPixelMix G2 c u pL, s0, rest, ?_, hfill0, hsLlin, rfl, rfl, rfl, rfl,
      ?_, rfl, ?_, ?_, ?_⟩
    · rw [show (L - (g.linear : ℤ) - 1).toNat = 0 by omega, List.drop_zero]
    · rw [addToPixelMix_pixelMix, hG2]
      simp
    · rw [addToPixelMix_minBrightness, hG2]
      show (finishPixel g1).minBrightness = _
      rw [finishPixel_minBrightness, hg1, addToPixelMix_minBrightness]
    · rw [addToPixelMix_finished, hG2]
      show (finishPixel g1).finished = _
      rw [finishPixel_finished, hg1, addToPixelMix_finished, hfin]
    · intro y x
      rw [addToPixelMix_grid, show (L - (g.linear : ℤ) - 1).toNat = 0 by omega]
      simp only [List.take_zero, List.not_mem_nil, false_and, exists_false, if_false]
      rw [finishPixel_grid, hg1]
      simp only [addToPixelMix_y, addToPixelMix_x, addToPixelMix_pixelMix,
        addToPixelMix_minBrightness, addToPixelMix_grid]


/-- C2: a multi-pixel `fill` (`first_pixel < last_pixel`) adds a mix entry for
the fractional remainder of the first pixel (and finalizes that pixel), sets
every strictly intermediate pixel directly to the color finalized from the
single full-coverage entry `(color, used_pct, 1)`, and leaves the pixel at
`last_pixel` pending: the cursor sits on it, `pixelDirty` is set, and its mix
holds exactly the fractional-remainder entry, so a subsequent adjacent fill can
still contribute to it.  The cursor is assumed to already sit on `first_pixel`
(`hF`), the unconsumed curve steps carry consecutive linear indices (`hcons`),
and the cursor's cell is not revisited by the intermediate steps (`hfirst`). -/
theorem fill_multi_pixel_semantics (g : GridState) (fb len u : ℚ) (c : QColor) (L : ℤ)
    (hfin : g.finished = false)
    (hF : pyInt (fb / g.bytesPerPixel) = (g.linear : ℤ))
    (hL : pyInt ((fb + len - 1) / g.bytesPerPixel) = L)
    (hlt : (g.linear : ℤ) < L)
    (hcons : consecB g.linear g.remaining = true)
    (hlen : L ≤ (g.linear : ℤ) + g.remaining.length)
    (hfirst : ¬ ∃ s ∈ g.remaining.take (L - g.linear - 1).toNat, s.y = g.y ∧ s.x = g.x) :
    ∃ g' sL rest',
      Grid.fill g fb len u c = .ok g' ∧
      g.remaining.drop (L - g.linear - 1).toNat = sL :: rest' ∧
      (sL.lin : ℤ) = L ∧
      g'.grid g.y g.x = mixRGB (g.pixelMix ++
        [(c, u, (g.bytesPerPixel - pymod fb g.bytesPerPixel) / g.bytesPerPixel)])
        g.minBrightness ∧
      (∀ s ∈ g.remaining.take (L - g.linear - 1).toNat,
        g'.grid s.y s.x = mixRGB [(c, u, 1)] g.minBrightness) ∧
      g'.linear = sL.lin ∧ g'.y = sL.y ∧ g'.x = sL.x ∧
      g'.pixelDirty = true ∧
      g'.pixelMix = [(c, u,
        if pymod (fb + len) g.bytesPerPixel / g.bytesPerPixel = 0 then 1
        else pymod (fb + len) g.bytesPerPixel / g.bytesPerPixel)] ∧
      g'.finished = false := by
  obtain ⟨g', sL, rest', hdrop, hrun, hsL, hlin, hy, hx, hrem', hmix, hdirty, hminB,
    hfin', hgrid⟩ :=
    fill_multi_spec g fb len u c L _ hfin hF hL rfl hlt hcons hlen
  refine ⟨g', sL, rest', hrun, hdrop, hsL, ?_, ?_, hlin, hy, hx, hdirty, hmix, hfin'⟩
  · rw [hgrid g.y g.x, if_neg hfirst, if_pos ⟨rfl, rfl⟩]
  · intro s hs
    rw [hgrid s.y s.x, if_pos ⟨s, hs, rfl, rfl⟩]

/-- A concrete order-1 grid state whose cursor sits on the curve step with
linear index 0 (at `(1, 0)`), with the three later steps still unconsumed. -/
def demoFillState : GridState :=
  { order := 1, size := 10, y := 1, x := 0, linear := 0,
    remaining := [⟨0, 0, 1⟩, ⟨0, 1, 2⟩, ⟨1, 1, 3⟩],
    pixelMix := [], pixelDirty := false, totalBytes := 20, bytesPerPixel := 5,
    minBrightness := 1/10, grid := fun _ _ => (0, 0, 0), finished := false }

/-- Witness for the C2 theorem: `fill(0, 12, 1, white)` on `demoFillState`
spans pixels 0, 1, 2 and exhibits all the stated effects. -/
theorem fill_multi_pixel_semantics_witness :
    ∃ g' sL rest',
      Grid.fill demoFillState 0 12 1 white = .ok g' ∧
      demoFillState.remaining.drop ((2 : ℤ) - demoFillState.linear - 1).toNat = sL :: rest' ∧
      (sL.lin : ℤ) = 2 ∧
      g'.grid demoFillState.y demoFillState.x = mixRGB (demoFillState.pixelMix ++
        [(white, 1, (demoFillState.bytesPerPixel - pymod 0 demoFillState.bytesPerPixel) /
          demoFillState.bytesPerPixel)])
        demoFillState.minBrightness ∧
      (∀ s ∈ demoFillState.remaining.take ((2 : ℤ) - demoFillState.linear - 1).toNat,
        g'.grid s.y s.x = mixRGB [(white, 1, 1)] demoFillState.minBrightness) ∧
      g'.linear = sL.lin ∧ g'.y = sL.y ∧ g'.x = sL.x ∧
      g'.pixelDirty = true ∧
      g'.pixelMix = [(white, 1,
        if pymod (0 + 12) demoFillState.bytesPerPixel / demoFillState.bytesPerPixel = 0 then 1
        else pymod (0 + 12) demoFillState.bytesPerPixel / demoFillState.bytesPerPixel)] ∧
      g'.finished = false :=
  fill_multi_pixel_semantics demoFillState 0 12 1 white 2 rfl (by decide) (by decide)
    (by decide) (by decide) (by decide) (by decide)

/-- C10: a multi-pixel fill whose byte range ends exactly on a pixel boundary
(`(first_byte + length) % bytes_per_pixel == 0`) leaves the last pixel's mix
holding the full-coverage entry `(color, used_pct, 1)` rather than a
zero-coverage one. -/
theorem fill_boundary_full_coverage (g : GridState) (fb len u : ℚ) (c : QColor) (L : ℤ)
    (hfin : g.finished = false)
    (hF : pyInt (fb / g.bytesPerPixel) = (g.linear : ℤ))
    (hL : pyInt ((fb + len - 1) / g.bytesPerPixel) = L)
    (hlt : (g.linear : ℤ) < L)
    (hcons : consecB g.linear g.remaining = true)
    (hlen : L ≤ (g.linear : ℤ) + g.remaining.length)
    (hbound : pymod (fb + len) g.bytesPerPixel = 0) :
    ∃ g', Grid.fill g fb len u c = .ok g' ∧ g'.pixelMix = [(c, u, 1)] := by
  obtain ⟨g', sL, rest', -, hrun, -, -, -, -, -, hmix, -, -, -, -⟩ :=
    fill_multi_spec g fb len u c L 1 hfin hF hL (by rw [hbound]; simp) hlt hcons hlen
  exact ⟨g', hrun, hmix⟩

/-- Witness for the C10 theorem: `fill(0, 10, 1, white)` on `demoFillState`
ends exactly at the boundary of pixel 1 and leaves mix `[(white, 1, 1)]`. -/
theorem fill_boundary_full_coverage_witness :
    pymod ((0 : ℚ) + 10) demoFillState.bytesPerPixel = 0 ∧
    ∃ g', Grid.fill demoFillState 0 10 1 white = .ok g' ∧ g'.pixelMix = [(white, 1, 1)] :=
  ⟨by decide, fill_boundary_full_coverage demoFillState 0 10 1 white 1 rfl (by decide)
    (by decide) (by decide) (by decide) (by decide) (by decide)⟩

/-- C7: `_pixel_mix_to_rgbytes` of a two-entry mix whose coverage fractions
partition the pixel (`p1 + p2 = 1`) equals the finalized color of a single
full-coverage entry carrying the coverage-weighted average color and the
coverage-weighted average used fraction. -/
theorem mix_partition_average (c1 c2 : QColor) (u1 u2 p1 p2 minB : ℚ)
    (hp : p1 + p2 = 1) :
    mixRGB [(c1, u1, p1), (c2, u2, p2)] minB =
    mixRGB [(⟨p1 * c1.r + p2 * c2.r, p1 * c1.g + p2 * c2.g, p1 * c1.b + p2 * c2.b⟩,
             p1 * u1 + p2 * u2, 1)] minB := by
  unfold mixRGB
  simp only [List.map_cons, List.map_nil, List.sum_cons, List.sum_nil, Prod.mk.injEq]
  refine ⟨?_, ?_, ?_⟩ <;> (congr 1; ring)

/-- Witness for the C7 theorem: an even split of white and black at distinct
usages composes like a single half-used gray fill. -/
theorem mix_partition_average_witness :
    (1 : ℚ)/2 + 1/2 = 1 ∧
    mixRGB [(white, 1, 1/2), (⟨0, 0, 0⟩, 0, 1/2)] (1/10) =
    mixRGB [(⟨(1:ℚ)/2 * white.r + 1/2 * (0:ℚ), (1:ℚ)/2 * white.g + 1/2 * (0:ℚ),
             (1:ℚ)/2 * white.b + 1/2 * (0:ℚ)⟩, (1:ℚ)/2 * 1 + 1/2 * 0, 1)] (1/10) :=
  ⟨by norm_num, mix_partition_average white ⟨0, 0, 0⟩ 1 0 (1/2) (1/2) (1/10) (by norm_num)⟩

/-! ### `_write_png` (lines 533-566)

The output file is modelled as a byte list plus a write position (`open(_, "wb")`
starts empty at position 0), a closed flag, and an optional byte budget `quota`:
`none` is a healthy device, `some q` a device that raises `IOError` on the
first write that would exceed `q` further bytes, modelling an I/O error partway
through encoding.  A failing operation returns the file state at the moment of
the raise.  The zlib stream compressor is an abstract state machine `Compressor`
(`zlib.compressobj()` / `.compress` / `.flush`), and `zlib.crc32` is the fold of
an abstract byte-step function, seeded with 0 when the second argument is
omitted. -/

/-- A binary output file. -/
structure PFile where
  content : List ℕ
  pos : ℕ
  closed : Bool
  quota : Option ℕ
deriving DecidableEq, Repr

/-- Writing bytes at a position splices them over the existing content
(the only non-appending write in `_write_png` is the IDAT length
back-patch, which lands strictly inside the file). -/
def overwriteAt (pos : ℕ) (bs content : List ℕ) : List ℕ :=
  content.take pos ++ bs ++ content.drop (pos + bs.length)

/-- `out.write(bs)`: fails on a closed file or an exhausted byte budget,
otherwise splices at the current position and advances it. -/
def PFile.write (f : PFile) (bs : List ℕ) : Except PFile PFile :=
  if f.closed then .error f
  else match f.quota with
    | some q =>
      if q < bs.length then .error f
      else .ok { f with content := overwriteAt f.pos bs f.content,
                        pos := f.pos + bs.length, quota := some (q - bs.length) }
    | none => .ok { f with content := overwriteAt f.pos bs f.content,
                           pos := f.pos + bs.length }

/-- An abstract streaming compressor (`zlib.compressobj()`). -/
structure Compressor (σ : Type) where
  init : σ
  compress : σ → List ℕ → σ × List ℕ
  flush : σ → List ℕ

/-- `zlib.crc32(bs, c)` as the fold of an abstract byte-step function. -/
def crcRun (step : ℕ → ℕ → ℕ) (bs : List ℕ) (c : ℕ) : ℕ :=
  bs.foldl step c

/-- `b"\x89PNG\r\n\x1a\n"`. -/
def pngSig : List ℕ := [0x89, 0x50, 0x4E, 0x47, 0x0D, 0x0A, 0x1A, 0x0A]

/-- `b"IHDR"`. -/
def ihdrType : List ℕ := [0x49, 0x48, 0x44, 0x52]

/-- `b"IDAT"`. -/
def idatType : List ℕ := [0x49, 0x44, 0x41, 0x54]

/-- `b"\x00\x00\x00\x00IEND\xae\x42\x60\x82"`. -/
def iendChunk : List ℕ := [0, 0, 0, 0, 0x49, 0x45, 0x4E, 0x44, 0xAE, 0x42, 0x60, 0x82]

/-- `struct.Struct("!I").pack`: 4-byte big-endian encoding (the caller checks
the `n < 2^32` packing bound). -/
def be4 (n : ℕ) : List ℕ := [n / 2 ^ 24 % 256, n / 2 ^ 16 % 256, n / 2 ^ 8 % 256, n % 256]

/-- `b"".join(row)` for a row of 3-byte packed RGB pixels. -/
def rowBytes (row : List (ℕ × ℕ × ℕ)) : List ℕ :=
  row.flatMap fun p => [p.1, p.2.1, p.2.2]

/-- The filtered scanline stream: each row prefixed by filter byte `0x00`. -/
def pngFiltered (rows : List (List (ℕ × ℕ × ℕ))) : List ℕ :=
  rows.flatMap fun row => 0 :: rowBytes row

/-- The IDAT body loop (lines 548-554): for every uncompressed piece, feed it
to the compressor and, when output comes back, update the running CRC and
data length and write it out.  The piece list is
`rows.flatMap fun row => [[0x00], rowBytes row]`, matching the two-element
inner loop over `(b"\x00", b"".join(row))`. -/
def idatGo {σ : Type} (C : Compressor σ) (step : ℕ → ℕ → ℕ) :
    List (List ℕ) → σ → ℕ → ℕ → PFile → Except PFile (σ × ℕ × ℕ × PFile)
  | [], cs, crc, datalen, out => .ok (cs, crc, datalen, out)
  | piece :: ps, cs, crc, datalen, out =>
    if 0 < (C.compress cs piece).2.length then
      (out.write (C.compress cs piece).2).bind fun out' =>
        idatGo C step ps (C.compress cs piece).1
          (crcRun step (C.compress cs piece).2 crc)
          (datalen + (C.compress cs piece).2.length) out'
    else idatGo C step ps (C.compress cs piece).1 crc datalen out

/-- `_write_png(pngfile, width, height, rows)` with the call sites' default
`color_type=2`; `out0` is the file handle returned by `open(pngfile, "wb")`.
The two `.error` branches without a preceding write model `struct.pack("!I", _)`
raising on a value `≥ 2^32` (for width/height, and for the back-patched data
length).  The flush block keeps the dead compressor state component so that
the loop state type is reused. -/
def writePng {σ : Type} (C : Compressor σ) (step : ℕ → ℕ → ℕ) (out0 : PFile)
    (width height : ℕ) (rows : List (List (ℕ × ℕ × ℕ))) : Except PFile PFile :=
  (out0.write pngSig).bind fun o1 =>
  (o1.write (be4 13)).bind fun o2 =>
  if 2 ^ 32 ≤ width ∨ 2 ^ 32 ≤ height then .error o2 else
  (o2.write (ihdrType ++ be4 width ++ be4 height ++ [8, 2, 0, 0, 0])).bind fun o3 =>
  (o3.write (be4 (crcRun step
      (ihdrType ++ be4 width ++ be4 height ++ [8, 2, 0, 0, 0]) 0 % 2 ^ 32))).bind fun o4 =>
  (o4.write ([0, 0, 0, 0] ++ idatType)).bind fun o5 =>
  (idatGo C step (rows.flatMap fun row => [[0], rowBytes row])
      C.init (crcRun step idatType 0) 0 o5).bind fun st =>
  (if 0 < (C.flush st.1).length then
      (st.2.2.2.write (C.flush st.1)).bind fun o7 =>
        .ok (st.1, crcRun step (C.flush st.1) st.2.1, st.2.2.1 + (C.flush st.1).length, o7)
    else .ok st).bind fun fin =>
  (fin.2.2.2.write (be4 (fin.2.1 % 2 ^ 32))).bind fun o8 =>
  (o8.write iendChunk).bind fun o9 =>
  if 2 ^ 32 ≤ fin.2.2.1 then .error o9 else
  ({ o9 with pos := o4.pos }.write (be4 fin.2.2.1)).bind fun o10 =>
  .ok { o10 with closed := true }

/-- The IDAT payload: what the compressor emits for the whole filtered stream,
followed by the flush output. -/
def pngPayload {σ : Type} (C : Compressor σ) (rows : List (List (ℕ × ℕ × ℕ))) : List ℕ :=
  (C.compress C.init (pngFiltered rows)).2 ++
  C.flush (C.compress C.init (pngFiltered rows)).1

/-- The IHDR chunk type plus data, as packed by `struct.Struct("!4s2I5B")`. -/
def ihdrData (width height : ℕ) : List ℕ :=
  ihdrType ++ be4 width ++ be4 height ++ [8, 2, 0, 0, 0]

/-- Running a compressor over a piece list, collecting all emitted output. -/
def compressList {σ : Type} (C : Compressor σ) : σ → List (List ℕ) → σ × List ℕ
  | cs, [] => (cs, [])
  | cs, p :: ps =>
    ((compressList C (C.compress cs p).1 ps).1,
     (C.compress cs p).2 ++ (compressList C (C.compress cs p).1 ps).2)

theorem overwriteAt_end (l bs : List ℕ) : overwriteAt l.length bs l = l ++ bs := by
  unfold overwriteAt
  rw [List.take_length, List.drop_eq_nil_of_le (Nat.le_add_right _ _), List.append_nil]

theorem write_app (content bs : List ℕ) :
    (PFile.mk content content.length false none).write bs =
      .ok (PFile.mk (content ++ bs) (content ++ bs).length false none) := by
  simp [PFile.write, overwriteAt_end]

theorem write_free (c : List ℕ) (p : ℕ) (bs : List ℕ) :
    (PFile.mk c p false none).write bs =
      .ok (PFile.mk (overwriteAt p bs c) (p + bs.length) false none) := by
  simp [PFile.write]

theorem idatGo_spec {σ : Type} (C : Compressor σ) (step : ℕ → ℕ → ℕ)
    (ps : List (List ℕ)) : ∀ (cs : σ) (crc datalen : ℕ) (content : List ℕ),
    idatGo C step ps cs crc datalen (PFile.mk content content.length false none) =
      .ok ((compressList C cs ps).1,
        crcRun step (compressList C cs ps).2 crc,
        datalen + (compressList C cs ps).2.length,
        PFile.mk (content ++ (compressList C cs ps).2)
          (content ++ (compressList C cs ps).2).length false none) := by
  induction ps with
  | nil =>
    intro cs crc datalen content
    simp [idatGo, compressList, crcRun]
  | cons p ps ih =>
    intro cs crc datalen content
    simp only [idatGo]
    by_cases h : 0 < (C.compress cs p).2.length
    · rw [if_pos h, write_app, Except.bind, ih]
      simp [compressList, crcRun, List.foldl_append, List.append_assoc, Nat.add_assoc]
    · rw [if_neg h]
      have h0 : (C.compress cs p).2 = [] :=
        List.eq_nil_of_length_eq_zero (by omega)
      rw [ih]
      simp [compressList, h0, crcRun]

theorem compressList_flatten {σ : Type} (C : Compressor σ)
    (hnil : ∀ st, C.compress st [] = (st, []))
    (hstream : ∀ st a b, C.compress st (a ++ b) =
      ((C.compress (C.compress st a).1 b).1,
       (C.compress st a).2 ++ (C.compress (C.compress st a).1 b).2))
    (ps : List (List ℕ)) : ∀ cs, compressList C cs ps = C.compress cs ps.flatten := by
  induction ps with
  | nil => intro cs; simp [compressList, hnil]
  | cons p ps ih =>
    intro cs
    simp only [compressList, List.flatten_cons, ih]
    rw [hstream cs p ps.flatten]

theorem pngPieces_flatten (rows : List (List (ℕ × ℕ × ℕ))) :
    (rows.flatMap fun row => [[0], rowBytes row]).flatten = pngFiltered rows := by
  induction rows with
  | nil => rfl
  | cons r rs ih =>
    simp only [pngFiltered, List.flatMap_cons, List.flatten_append, ih, pngFiltered]
    simp

theorem overwriteAt_patch (l1 l2 l3 bs : List ℕ) (h : bs.length = l2.length) :
    overwriteAt l1.length bs (l1 ++ l2 ++ l3) = l1 ++ bs ++ l3 := by
  unfold overwriteAt
  rw [List.append_assoc l1 l2 l3, List.take_left l1 (l2 ++ l3), h,
      ← List.length_append l1 l2, ← List.append_assoc l1 l2 l3,
      List.drop_left (l1 ++ l2) l3]

/-- C6: on a healthy device, `_write_png` writes exactly the 8-byte PNG
signature; an IHDR chunk of declared length 13 with width and height as
4-byte big-endian integers, bit depth 8, color type 2, and
compression/filter/interlace 0, followed by the CRC32 of chunk type plus
data; a single IDAT chunk whose payload is the compression of the
0x00-filtered 3-bytes-per-pixel rows, whose declared length is back-patched
to the true compressed length, with the CRC32 of chunk type plus payload;
and the fixed IEND trailer — and closes the file.  The compressor is any
streaming compressor (zlib's satisfies `hnil`/`hstream`), and the packing
bounds of `struct.pack("!I", _)` are assumed. -/
theorem write_png_format_spec {σ : Type} (C : Compressor σ) (step : ℕ → ℕ → ℕ)
    (width height : ℕ) (rows : List (List (ℕ × ℕ × ℕ)))
    (hnil : ∀ st, C.compress st [] = (st, []))
    (hstream : ∀ st a b, C.compress st (a ++ b) =
      ((C.compress (C.compress st a).1 b).1,
       (C.compress st a).2 ++ (C.compress (C.compress st a).1 b).2))
    (hw : width < 2 ^ 32) (hh : height < 2 ^ 32)
    (hdl : (pngPayload C rows).length < 2 ^ 32) :
    ∃ f, writePng C step (PFile.mk [] 0 false none) width height rows = .ok f ∧
      f.closed = true ∧
      f.content =
        pngSig ++ be4 13 ++ ihdrData width height ++
        be4 (crcRun step (ihdrData width height) 0 % 2 ^ 32) ++
        be4 (pngPayload C rows).length ++ idatType ++ pngPayload C rows ++
        be4 (crcRun step (idatType ++ pngPayload C rows) 0 % 2 ^ 32) ++
        iendChunk := by
  have h1 : (PFile.mk [] 0 false none).write pngSig =
      .ok (PFile.mk pngSig pngSig.length false none) := by
    simp [PFile.write, overwriteAt]
  have hcl : compressList C C.init (rows.flatMap fun row => [[0], rowBytes row]) =
      C.compress C.init (pngFiltered rows) := by
    rw [compressList_flatten C hnil hstream, pngPieces_flatten]
  have hwh : ¬ (2 ^ 32 ≤ width ∨ 2 ^ 32 ≤ height) := by omega
  unfold writePng
  rw [h1]
  simp only [Except.bind]
  rw [write_app]
  simp only [Except.bind]
  rw [if_neg hwh, write_app]
  simp only [Except.bind]
  rw [write_app]
  simp only [Except.bind]
  rw [write_app]
  simp only [Except.bind]
  rw [idatGo_spec, hcl]
  simp only [Except.bind]
  by_cases hfl : 0 < (C.flush (C.compress C.init (pngFiltered rows)).1).length
  · rw [if_pos hfl, write_app]
    simp only [Except.bind]
    rw [write_app]
    simp only [Except.bind]
    rw [write_app]
    simp only [Except.bind]
    rw [if_neg (show ¬ (2 ^ 32 ≤ 0 + (C.compress C.init (pngFiltered rows)).2.length +
        (C.flush (C.compress C.init (pngFiltered rows)).1).length) from by
      have := hdl
      rw [pngPayload, List.length_append] at this
      omega)]
    rw [write_free]
    simp only [Except.bind]
    refine ⟨_, rfl, rfl, ?_⟩
    simp only [pngPayload, ihdrData]
    generalize C.flush (C.compress C.init (pngFiltered rows)).1 = q
    generalize (C.compress C.init (pngFiltered rows)).2 = p
    generalize ihdrType ++ be4 width ++ be4 height ++ [8, 2, 0, 0, 0] = I
    generalize hA : pngSig ++ be4 13 ++ I ++ be4 (crcRun step I 0 % 2 ^ 32) = A
    rw [show A ++ ([0, 0, 0, 0] ++ idatType) ++ p ++ q ++
          be4 (crcRun step q (crcRun step p (crcRun step idatType 0)) % 2 ^ 32) ++ iendChunk
        = A ++ [0, 0, 0, 0] ++ (idatType ++ (p ++ (q ++
            (be4 (crcRun step q (crcRun step p (crcRun step idatType 0)) % 2 ^ 32) ++
             iendChunk)))) from by simp [List.append_assoc]]
    rw [overwriteAt_patch A [0, 0, 0, 0] _ (be4 (0 + p.length + q.length)) rfl]
    simp [crcRun, List.foldl_append, List.append_assoc, List.length_append]
  · rw [if_neg hfl]
    simp only [Except.bind]
    rw [write_app]
    simp only [Except.bind]
    rw [write_app]
    simp only [Except.bind]
    have hq0 : C.flush (C.compress C.init (pngFiltered rows)).1 = [] :=
      List.eq_nil_of_length_eq_zero (by omega)
    rw [if_neg (show ¬ (2 ^ 32 ≤ 0 + (C.compress C.init (pngFiltered rows)).2.length) from by
      have hdl2 := hdl
      rw [pngPayload, List.length_append, hq0] at hdl2
      simp only [List.length_nil] at hdl2
      omega)]
    rw [write_free]
    simp only [Except.bind]
    refine ⟨_, rfl, rfl, ?_⟩
    simp only [pngPayload, ihdrData, hq0, List.append_nil]
    generalize (C.compress C.init (pngFiltered rows)).2 = p
    generalize ihdrType ++ be4 width ++ be4 height ++ [8, 2, 0, 0, 0] = I
    generalize hA : pngSig ++ be4 13 ++ I ++ be4 (crcRun step I 0 % 2 ^ 32) = A
    rw [show A ++ ([0, 0, 0, 0] ++ idatType) ++ p ++
          be4 (crcRun step p (crcRun step idatType 0) % 2 ^ 32) ++ iendChunk
        = A ++ [0, 0, 0, 0] ++ (idatType ++ (p ++
            (be4 (crcRun step p (crcRun step idatType 0) % 2 ^ 32) ++
             iendChunk))) from by simp [List.append_assoc]]
    rw [overwriteAt_patch A [0, 0, 0, 0] _ (be4 (0 + p.length)) rfl]
    simp [crcRun, List.foldl_append, List.append_assoc, List.length_append]

/-- The identity compressor: emits its input unchanged and flushes nothing.
It is streaming-composable, so it exercises the PNG writer concretely. -/
def idComp : Compressor Unit := ⟨(), fun st bs => (st, bs), fun _ => []⟩

/-- A concrete CRC byte-step for demonstrations. -/
def demoStep (c b : ℕ) : ℕ := c + b

/-- Witness for the C6 theorem: the identity compressor on a 1x1 image. -/
theorem write_png_format_spec_witness :
    ∃ f, writePng idComp demoStep (PFile.mk [] 0 false none) 1 1 [[(1, 2, 3)]] = .ok f ∧
      f.closed = true ∧
      f.content =
        pngSig ++ be4 13 ++ ihdrData 1 1 ++
        be4 (crcRun demoStep (ihdrData 1 1) 0 % 2 ^ 32) ++
        be4 (pngPayload idComp [[(1, 2, 3)]]).length ++ idatType ++
        pngPayload idComp [[(1, 2, 3)]] ++
        be4 (crcRun demoStep (idatType ++ pngPayload idComp [[(1, 2, 3)]]) 0 % 2 ^ 32) ++
        iendChunk :=
  write_png_format_spec idComp demoStep 1 1 [[(1, 2, 3)]]
    (fun _ => rfl) (fun _ _ _ => rfl) (by decide) (by decide) (by decide)

theorem write_ok_closed {f g : PFile} {bs : List ℕ} (h : f.write bs = .ok g) :
    g.closed = f.closed := by
  unfold PFile.write at h
  split at h
  · exact absurd h (by simp)
  · split at h
    · split at h
      · exact absurd h (by simp)
      · simp only [Except.ok.injEq] at h
        rw [← h]
    · simp only [Except.ok.injEq] at h
      rw [← h]

theorem write_err_closed {f g : PFile} {bs : List ℕ} (h : f.write bs = .error g) :
    g.closed = f.closed := by
  unfold PFile.write at h
  split at h
  · simp only [Except.error.injEq] at h
    rw [← h]
  · split at h
    · split at h
      · simp only [Except.error.injEq] at h
        rw [← h]
      · exact absurd h (by simp)
    · exact absurd h (by simp)

theorem idatGo_closed {σ : Type} (C : Compressor σ) (step : ℕ → ℕ → ℕ)
    (ps : List (List ℕ)) : ∀ (cs : σ) (crc dl : ℕ) (out : PFile),
    (∀ t, idatGo C step ps cs crc dl out = .ok t → t.2.2.2.closed = out.closed) ∧
    (∀ f, idatGo C step ps cs crc dl out = .error f → f.closed = out.closed) := by
  induction ps with
  | nil =>
    intro cs crc dl out
    constructor
    · intro t ht
      simp only [idatGo, Except.ok.injEq] at ht
      rw [← ht]
    · intro f hf
      exact absurd hf (by simp [idatGo])
  | cons p ps ih =>
    intro cs crc dl out
    simp only [idatGo]
    split
    · rcases hw : out.write (C.compress cs p).2 with f' | o'
      · constructor
        · intro t ht
          exact absurd ht (by simp [Except.bind])
        · intro f hf
          simp only [Except.bind, Except.error.injEq] at hf
          rw [← hf]
          exact write_err_closed hw
      · constructor
        · intro t ht
          simp only [Except.bind] at ht
          rw [(ih _ _ _ o').1 t ht]
          exact write_ok_closed hw
        · intro f hf
          simp only [Except.bind] at hf
          rw [(ih _ _ _ o').2 f hf]
          exact write_ok_closed hw
    · exact ih _ _ _ out

/-- The close-behavior invariant: a run that returns normally has closed the
file, and a run that raises leaves the closed flag exactly as it was. -/
def FinB (c : Bool) (r : Except PFile PFile) : Prop :=
  (∀ f, r = .ok f → f.closed = true) ∧ (∀ f, r = .error f → f.closed = c)

theorem FinB_bindW {c : Bool} {r : Except PFile PFile} {k : PFile → Except PFile PFile}
    (hr1 : ∀ f, r = .ok f → f.closed = c)
    (hr2 : ∀ f, r = .error f → f.closed = c)
    (hk : ∀ f, f.closed = c → FinB c (k f)) : FinB c (r.bind k) := by
  rcases r with f | f
  · refine ⟨fun f' h => absurd h (by simp [Except.bind]), fun f' h => ?_⟩
    simp only [Except.bind, Except.error.injEq] at h
    rw [← h]
    exact hr2 f rfl
  · exact hk f (hr1 f rfl)

theorem FinB_bind_write {c : Bool} {fo : PFile} {bs : List ℕ}
    {k : PFile → Except PFile PFile}
    (hfo : fo.closed = c) (hk : ∀ f, f.closed = c → FinB c (k f)) :
    FinB c ((fo.write bs).bind k) :=
  FinB_bindW (fun f h => (write_ok_closed h).trans hfo)
    (fun f h => (write_err_closed h).trans hfo) hk

theorem FinB_bindT {σ : Type} {c : Bool} {r : Except PFile (σ × ℕ × ℕ × PFile)}
    {k : σ × ℕ × ℕ × PFile → Except PFile PFile}
    (hr1 : ∀ t, r = .ok t → t.2.2.2.closed = c)
    (hr2 : ∀ f, r = .error f → f.closed = c)
    (hk : ∀ t, t.2.2.2.closed = c → FinB c (k t)) : FinB c (r.bind k) := by
  rcases r with f | t
  · refine ⟨fun f' h => absurd h (by simp [Except.bind]), fun f' h => ?_⟩
    simp only [Except.bind, Except.error.injEq] at h
    rw [← h]
    exact hr2 f rfl
  · exact hk t (hr1 t rfl)

theorem writePng_FinB {σ : Type} (C : Compressor σ) (step : ℕ → ℕ → ℕ)
    (out0 : PFile) (width height : ℕ) (rows : List (List (ℕ × ℕ × ℕ))) :
    FinB out0.closed (writePng C step out0 width height rows) := by
  unfold writePng
  refine FinB_bind_write rfl (fun o1 h1 => ?_)
  refine FinB_bind_write h1 (fun o2 h2 => ?_)
  split
  · refine ⟨fun f h => absurd h (by simp), fun f h => ?_⟩
    simp only [Except.error.injEq] at h
    rw [← h]
    exact h2
  · refine FinB_bind_write h2 (fun o3 h3 => ?_)
    refine FinB_bind_write h3 (fun o4 h4 => ?_)
    refine FinB_bind_write h4 (fun o5 h5 => ?_)
    refine FinB_bindT
      (fun t ht => ((idatGo_closed C step _ C.init _ 0 o5).1 t ht).trans h5)
      (fun f hf => ((idatGo_closed C step _ C.init _ 0 o5).2 f hf).trans h5)
      (fun st hst => ?_)
    refine FinB_bindT ?_ ?_ (fun fin hfin => ?_)
    · intro t ht
      split at ht
      · rcases hwf : st.2.2.2.write (C.flush st.1) with f' | o7
        · rw [hwf] at ht
          simp [Except.bind] at ht
        · rw [hwf] at ht
          simp only [Except.bind, Except.ok.injEq] at ht
          rw [← ht]
          exact (write_ok_closed hwf).trans hst
      · simp only [Except.ok.injEq] at ht
        rw [← ht]
        exact hst
    · intro f hf
      split at hf
      · rcases hwf : st.2.2.2.write (C.flush st.1) with f' | o7
        · rw [hwf] at hf
          simp only [Except.bind, Except.error.injEq] at hf
          rw [← hf]
          exact (write_err_closed hwf).trans hst
        · rw [hwf] at hf
          simp [Except.bind] at hf
      · exact absurd hf (by simp)
    · refine FinB_bind_write hfin (fun o8 h8 => ?_)
      refine FinB_bind_write h8 (fun o9 h9 => ?_)
      split
      · refine ⟨fun f h => absurd h (by simp), fun f h => ?_⟩
        simp only [Except.error.injEq] at h
        rw [← h]
        exact h9
      · refine FinB_bind_write h9 (fun o10 h10 => ?_)
        refine ⟨fun f h => ?_, fun f h => absurd h (by simp)⟩
        simp only [Except.ok.injEq] at h
        rw [← h]

/-- C9 (amended): on every execution of the modelled `_write_png`, a normal
return has closed the output file, while a raising execution (I/O error on a
write, or a `struct.pack` overflow) propagates the exception without closing
the handle — the source has no `try`/`finally` around the encoding, so the
spec's "closed on all exit paths" holds only for the success path. -/
theorem write_png_close_behavior {σ : Type} (C : Compressor σ) (step : ℕ → ℕ → ℕ)
    (out0 : PFile) (width height : ℕ) (rows : List (List (ℕ × ℕ × ℕ))) :
    (∀ f, writePng C step out0 width height rows = .ok f → f.closed = true) ∧
    (∀ f, writePng C step out0 width height rows = .error f → f.closed = out0.closed) :=
  writePng_FinB C step out0 width height rows

/-- The file produced by a successful demonstration run of the PNG writer. -/
def pngDemoFile : PFile :=
  match writePng idComp demoStep (PFile.mk [] 0 false none) 1 1 [[(1, 2, 3)]] with
  | .ok f => f
  | .error _ => PFile.mk [] 0 false none

/-- Witness for the C9 theorem: the demonstration run returns normally and
its result file is closed. -/
theorem write_png_close_behavior_witness : pngDemoFile.closed = true :=
  (write_png_close_behavior idComp demoStep (PFile.mk [] 0 false none) 1 1
    [[(1, 2, 3)]]).1 pngDemoFile (by rfl)

/-- C9 counterexample: on a device that fails once more than 10 bytes are
written, the signature write succeeds but the IHDR length write raises, and
`_write_png` propagates the error with the file still open (`closed = false`):
nothing in the source closes the handle on the error path. -/
theorem write_png_io_error_counterexample :
    writePng idComp demoStep (PFile.mk [] 0 false (some 10)) 1 1 [[(1, 2, 3)]] =
      .error (PFile.mk pngSig 8 false (some 2)) ∧
    (PFile.mk pngSig 8 false (some 2)).closed = false := by
  constructor
  · rfl
  · rfl
